import Mathlib

/-!
# Sphere clipping against a BSP tree (`src/game/bsp.c`)

A shallow embedding of `bsp_clip_sphere` and `bsp_clip_R`, and the properties
of the traversal stated over it.

Modelling decisions:

* A C `float` is a value of `float_t`: a NaN, an infinity or a finite number
  (the two zeros are one value). The comparisons `<`, `>`, `<=` are those of C:
  exact on finite values, false whenever an operand is NaN.
* The arithmetic on floats (`vec3_dot`, `-`, `+`) rounds, and how it rounds is
  not fixed by the source. It is a parameter `float_ops` of the embedding, and
  every theorem holds for every arithmetic; `min_dist` and `max_dist` are the
  floats the code computes at bsp.c lines 18 and 19, not the exact real values.
* `bsp->nodes` and `clips` are C arrays, modelled as lists; reading
  `nodes[node_id]` outside the node array and writing `clips[num_clips]`
  outside the buffer are undefined in C and are explicit faults here.
* The C recursion is modelled with a fuel argument bounding the recursion
  depth; running out of fuel is a separate outcome, so termination is a
  theorem (enough fuel always gives a result), not an assumption.
-/

namespace Bsp

/-! ## Floats -/

/-- A value of the C type `float`: a NaN, minus infinity, a finite number, or
plus infinity. -/
inductive float_t where
  | nan
  | ninf
  | fin (q : ℚ)
  | pinf
deriving DecidableEq

/-- The C comparison `a < b` on floats (`a > b` is `b < a`): false when an
operand is NaN. -/
def float_t.lt : float_t → float_t → Prop
  | .fin a, .fin b => a < b
  | .ninf, .fin _ => True
  | .ninf, .pinf => True
  | .fin _, .pinf => True
  | _, _ => False

/-- The C comparison `a <= b` on floats (`a >= b` is `b <= a`): false when an
operand is NaN. -/
def float_t.le : float_t → float_t → Prop
  | .fin a, .fin b => a ≤ b
  | .ninf, .ninf => True
  | .ninf, .fin _ => True
  | .ninf, .pinf => True
  | .fin _, .pinf => True
  | .pinf, .pinf => True
  | _, _ => False

instance : LT float_t := ⟨float_t.lt⟩

instance : LE float_t := ⟨float_t.le⟩

instance float_t.decLt (a b : float_t) : Decidable (a < b) := by
  cases a <;> cases b <;> simp only [LT.lt, float_t.lt] <;> infer_instance

instance float_t.decLe (a b : float_t) : Decidable (a ≤ b) := by
  cases a <;> cases b <;> simp only [LE.le, float_t.le] <;> infer_instance

/-- The greater of two floats as the update at bsp.c lines 26-29 takes it:
`b` when `a < b`, else `a`. -/
def float_max (a b : float_t) : float_t := if a < b then b else a

/-! ## Data model (declared in `bsp.h` and `nui_math.h`) -/

/-- Modelled from the spec: `vec3_t` of `nui_math.h`, a 3D vector of floats. -/
structure vec3_t where
  x : float_t
  y : float_t
  z : float_t
deriving DecidableEq

/-- Modelled from the spec: `bsp_plane_t` of `bsp.h`, the points `p` with
`dot(p, normal) = distance`. -/
structure bsp_plane_t where
  normal : vec3_t
  distance : float_t
deriving DecidableEq

/-- Modelled from the spec: `bsp_node_t` of `bsp.h`; a child reference is a
node index or the sentinel `-1`. -/
structure bsp_node_t where
  plane : bsp_plane_t
  ahead : Int
  behind : Int
deriving DecidableEq

/-- Modelled from the spec: `bsp_t` of `bsp.h`, the flat node array. -/
structure bsp_t where
  nodes : List bsp_node_t

/-- Modelled from the spec: `sphere_t` of `bsp.h`. -/
structure sphere_t where
  pos : vec3_t
  radius : float_t

/-- Modelled from the spec: `clip_t` of `bsp.h`, one contact normal. -/
structure clip_t where
  normal : vec3_t
deriving DecidableEq

/-- Modelled from the spec: the float arithmetic of the traversal, namely
`vec3_dot` of `nui_math.h` and the C operators `-` and `+` on floats. Each
returns some float; nothing is assumed of how it rounds, overflows or treats
NaN. -/
structure float_ops where
  dot : vec3_t → vec3_t → float_t
  sub : float_t → float_t → float_t
  add : float_t → float_t → float_t

/-- The zero vector, the value of a member left out of a C compound literal. -/
def vec3_zero : vec3_t := ⟨.fin 0, .fin 0, .fin 0⟩

/-- What a call of `bsp_clip_R` comes to: it returns the buffer and the clip
count, or the model ran out of fuel, or the C code read outside `nodes`, or it
wrote outside `clips`. -/
inductive clip_result where
  | done (clips : List clip_t) (num_clips : Int)
  | out_of_fuel
  | bad_node
  | overrun
deriving DecidableEq

/-- The read `&bsp->nodes[node_id]` (bsp.c line 16). -/
def node_at (bsp : bsp_t) (node_id : Int) : Option bsp_node_t :=
  if 0 ≤ node_id then bsp.nodes[node_id.toNat]? else none

/-- The write `clips[num_clips++].normal = normal` (bsp.c line 32). -/
def clip_write (clips : List clip_t) (num_clips : Int) (normal : vec3_t) : clip_result :=
  if 0 ≤ num_clips ∧ num_clips.toNat < clips.length then
    .done (clips.set num_clips.toNat ⟨normal⟩) (num_clips + 1)
  else .overrun

/-- The float `min_dist` of bsp.c line 18:
`vec3_dot(sphere->pos, node->plane.normal) - node->plane.distance - sphere->radius`
as the float arithmetic computes it. -/
def min_dist (ops : float_ops) (sphere : sphere_t) (node : bsp_node_t) : float_t :=
  ops.sub (ops.sub (ops.dot sphere.pos node.plane.normal) node.plane.distance) sphere.radius

/-- The float `max_dist` of bsp.c line 19:
`vec3_dot(sphere->pos, node->plane.normal) - node->plane.distance + sphere->radius`
as the float arithmetic computes it. -/
def max_dist (ops : float_ops) (sphere : sphere_t) (node : bsp_node_t) : float_t :=
  ops.add (ops.sub (ops.dot sphere.pos node.plane.normal) node.plane.distance) sphere.radius

/-- The update of `min_plane` in bsp.c lines 26-29. -/
def update_min_plane (ops : float_ops) (sphere : sphere_t) (node : bsp_node_t)
    (min_plane : bsp_plane_t) : bsp_plane_t :=
  if min_dist ops sphere node > min_plane.distance then
    { distance := min_dist ops sphere node, normal := node.plane.normal }
  else min_plane

/-! ## The traversal -/

/-- The function `bsp_clip_R` of bsp.c lines 10-39. -/
def bsp_clip_R (ops : float_ops) (fuel : Nat) (clips : List clip_t) (bsp : bsp_t)
    (node_id : Int) (sphere : sphere_t) (min_plane : bsp_plane_t) (num_clips : Int) :
    clip_result :=
  match fuel with
  | 0 => if node_id = -1 then .done clips num_clips else .out_of_fuel
  | fuel + 1 =>
    if node_id = -1 then .done clips num_clips
    else
      match node_at bsp node_id with
      | none => .bad_node
      | some node =>
        match (if max_dist ops sphere node > float_t.fin 0 then
                 bsp_clip_R ops fuel clips bsp node.ahead sphere min_plane num_clips
               else .done clips num_clips) with
        | .done clips num_clips =>
          if min_dist ops sphere node < float_t.fin 0 then
            match (if node.behind = -1 then
                     clip_write clips num_clips (update_min_plane ops sphere node min_plane).normal
                   else .done clips num_clips) with
            | .done clips num_clips =>
              bsp_clip_R ops fuel clips bsp node.behind sphere
                (update_min_plane ops sphere node min_plane) num_clips
            | r => r
          else .done clips num_clips
        | r => r

/-- The binding plane `(bsp_plane_t) { .distance = -1000 }` of bsp.c line 7:
the distance is the float -1000, the normal left out is zero. -/
def initial_plane : bsp_plane_t := { normal := vec3_zero, distance := .fin (-1000) }

/-- The function `bsp_clip_sphere` of bsp.c lines 5-8. -/
def bsp_clip_sphere (ops : float_ops) (fuel : Nat) (clips : List clip_t) (bsp : bsp_t)
    (sphere : sphere_t) : clip_result :=
  bsp_clip_R ops fuel clips bsp 0 sphere initial_plane 0

/-! ## The list-returning form of the algorithm -/

/-- The traversal as the spec words it for a growable output sequence: the
clips of the ahead subtree when `max_dist > 0`, followed, when `min_dist < 0`,
by the node's own clip (behind reference is the sentinel) or the clips of the
behind subtree under the updated binding plane. `none` stands for a reference
outside the node collection or for fuel running out. -/
def clip_list (ops : float_ops) (fuel : Nat) (bsp : bsp_t) (node_id : Int)
    (sphere : sphere_t) (min_plane : bsp_plane_t) : Option (List vec3_t) :=
  match fuel with
  | 0 => if node_id = -1 then some [] else none
  | fuel + 1 =>
    if node_id = -1 then some []
    else
      match node_at bsp node_id with
      | none => none
      | some node =>
        match (if max_dist ops sphere node > float_t.fin 0 then
                 clip_list ops fuel bsp node.ahead sphere min_plane
               else some []) with
        | none => none
        | some ahead_clips =>
          if min_dist ops sphere node < float_t.fin 0 then
            if node.behind = -1 then
              some (ahead_clips ++ [(update_min_plane ops sphere node min_plane).normal])
            else
              match clip_list ops fuel bsp node.behind sphere
                      (update_min_plane ops sphere node min_plane) with
              | none => none
              | some behind_clips => some (ahead_clips ++ behind_clips)
          else some ahead_clips

/-- The buffer `clips` with the normals `L` stored from index `n` on and every
other entry kept. -/
def store_from (clips : List clip_t) (n : Nat) (L : List vec3_t) : List clip_t :=
  clips.take n ++ L.map clip_t.mk ++ clips.drop (n + L.length)

/-! ## The recursive calls of a traversal -/

/-- One recursive call made inside `bsp_clip_R`: the node reference and binding
plane the calling invocation had received, the call site (`behind` is true for
bsp.c line 35, false for bsp.c line 22), and the node reference and binding
plane it hands to the call. -/
structure call_t where
  caller : Int
  received : bsp_plane_t
  behind : Bool
  callee : Int
  passed : bsp_plane_t

/-- The function `bsp_clip_R` of bsp.c lines 10-39 once more, returning beside
its outcome the recursive calls made during the invocation, in the order in
which they are made. -/
def bsp_clip_R_calls (ops : float_ops) (fuel : Nat) (clips : List clip_t) (bsp : bsp_t)
    (node_id : Int) (sphere : sphere_t) (min_plane : bsp_plane_t) (num_clips : Int) :
    clip_result × List call_t :=
  match fuel with
  | 0 => (if node_id = -1 then .done clips num_clips else .out_of_fuel, [])
  | fuel + 1 =>
    if node_id = -1 then (.done clips num_clips, [])
    else
      match node_at bsp node_id with
      | none => (.bad_node, [])
      | some node =>
        match (if max_dist ops sphere node > float_t.fin 0 then
                 ((bsp_clip_R_calls ops fuel clips bsp node.ahead sphere min_plane num_clips).1,
                   ⟨node_id, min_plane, false, node.ahead, min_plane⟩ ::
                   (bsp_clip_R_calls ops fuel clips bsp node.ahead sphere min_plane num_clips).2)
               else (.done clips num_clips, [])) with
        | (.done clips num_clips, ahead_calls) =>
          if min_dist ops sphere node < float_t.fin 0 then
            match (if node.behind = -1 then
                     clip_write clips num_clips (update_min_plane ops sphere node min_plane).normal
                   else .done clips num_clips) with
            | .done clips num_clips =>
              ((bsp_clip_R_calls ops fuel clips bsp node.behind sphere
                  (update_min_plane ops sphere node min_plane) num_clips).1,
                ahead_calls ++
                  ⟨node_id, min_plane, true, node.behind,
                    update_min_plane ops sphere node min_plane⟩ ::
                  (bsp_clip_R_calls ops fuel clips bsp node.behind sphere
                    (update_min_plane ops sphere node min_plane) num_clips).2)
            | r => (r, ahead_calls)
          else (.done clips num_clips, ahead_calls)
        | (r, ahead_calls) => (r, ahead_calls)

/-! ## Well-formed trees -/

/-- The references below reference `r` form a tree occupying exactly the node
indices `S`. The sentinel occupies nothing. A node reference is an index into
the node array, the references below its ahead and behind children form trees,
and no node is met twice: the two subtrees share no node and neither leads
back to the node itself. So every reference is in range and no chain of
references closes a cycle. -/
inductive TreeAt (bsp : bsp_t) : Int → Finset Nat → Prop where
  | sentinel : TreeAt bsp (-1) ∅
  | node (i : Nat) (nd : bsp_node_t) (A B : Finset Nat) :
      bsp.nodes[i]? = some nd →
      TreeAt bsp nd.ahead A → TreeAt bsp nd.behind B →
      Disjoint A B → i ∉ A → i ∉ B →
      TreeAt bsp (i : Int) (insert i (A ∪ B))

/-- A well-formed BSP tree: the references from the root, which is node 0
(bsp.c line 7), form a tree inside the node array. -/
def WellFormed (bsp : bsp_t) : Prop := ∃ S, TreeAt bsp 0 S

/-- The nodes a traversal started at `root` reaches: the root itself, the
ahead child of a reached node with `max_dist > 0`, and the behind child of a
reached node with `min_dist < 0`. -/
inductive Reached (ops : float_ops) (bsp : bsp_t) (sphere : sphere_t) (root : Nat) :
    Nat → Prop where
  | root : Reached ops bsp sphere root root
  | ahead (i j : Nat) (nd : bsp_node_t) :
      Reached ops bsp sphere root i → bsp.nodes[i]? = some nd →
      float_t.fin 0 < max_dist ops sphere nd → nd.ahead = (j : Int) →
      Reached ops bsp sphere root j
  | behind (i j : Nat) (nd : bsp_node_t) :
      Reached ops bsp sphere root i → bsp.nodes[i]? = some nd →
      min_dist ops sphere nd < float_t.fin 0 → nd.behind = (j : Int) →
      Reached ops bsp sphere root j

/-- Node `i` is reached by a traversal started at reference `r` (nothing is reached
from the sentinel). -/
def ReachedFrom (ops : float_ops) (bsp : bsp_t) (sphere : sphere_t) (r : Int) (i : Nat) : Prop :=
  ∃ k : Nat, r = (k : Int) ∧ Reached ops bsp sphere k i

/-- Node `i` writes a clip when it is visited: its behind reference is the
sentinel and its `min_dist` is negative (bsp.c lines 25 and 31). -/
def Emits (ops : float_ops) (bsp : bsp_t) (sphere : sphere_t) (i : Nat) : Prop :=
  ∃ nd, bsp.nodes[i]? = some nd ∧ nd.behind = -1 ∧ min_dist ops sphere nd < float_t.fin 0

/-- The chain of recursive calls from a call on reference `r` with binding
plane `p` down to a call on reference `r2` with binding plane `p2`. The path
lists the nodes passed on the way, each with the reference that was followed
(`true` for behind, bsp.c line 35; `false` for ahead, bsp.c line 22). -/
inductive Descent (ops : float_ops) (bsp : bsp_t) (sphere : sphere_t) :
    Int → bsp_plane_t → List (Nat × Bool) → Int → bsp_plane_t → Prop where
  | here (r : Int) (p : bsp_plane_t) : Descent ops bsp sphere r p [] r p
  | ahead (i : Nat) (nd : bsp_node_t) (p : bsp_plane_t) (path : List (Nat × Bool))
      (r2 : Int) (p2 : bsp_plane_t) :
      bsp.nodes[i]? = some nd → float_t.fin 0 < max_dist ops sphere nd →
      Descent ops bsp sphere nd.ahead p path r2 p2 →
      Descent ops bsp sphere (i : Int) p ((i, false) :: path) r2 p2
  | behind (i : Nat) (nd : bsp_node_t) (p : bsp_plane_t) (path : List (Nat × Bool))
      (r2 : Int) (p2 : bsp_plane_t) :
      bsp.nodes[i]? = some nd → min_dist ops sphere nd < float_t.fin 0 →
      Descent ops bsp sphere nd.behind (update_min_plane ops sphere nd p) path r2 p2 →
      Descent ops bsp sphere (i : Int) p ((i, true) :: path) r2 p2

/-- The nodes `chain` are linked from reference `r` through their behind
references; every ahead reference and the last behind reference are the
sentinel. -/
def IsChain (bsp : bsp_t) : Int → List bsp_node_t → Prop
  | r, [] => r = -1
  | r, nd :: rest => node_at bsp r = some nd ∧ nd.ahead = -1 ∧ IsChain bsp nd.behind rest

/-! ## Example inputs -/

/-- An arithmetic without rounding error: exact on finite operands, NaN
otherwise. On the example inputs below every intermediate value is a small
dyadic number, which binary32 arithmetic computes exactly as well. -/
def exact_ops : float_ops where
  dot := fun a b =>
    match a.x, a.y, a.z, b.x, b.y, b.z with
    | .fin a1, .fin a2, .fin a3, .fin b1, .fin b2, .fin b3 =>
      .fin (a1 * b1 + a2 * b2 + a3 * b3)
    | _, _, _, _, _, _ => .nan
  sub := fun a b =>
    match a, b with
    | .fin x, .fin y => .fin (x - y)
    | _, _ => .nan
  add := fun a b =>
    match a, b with
    | .fin x, .fin y => .fin (x + y)
    | _, _ => .nan

/-- The floor plane of the spec's examples: normal `(0,1,0)`, distance 0. -/
def floor_plane : bsp_plane_t := ⟨⟨.fin 0, .fin 1, .fin 0⟩, .fin 0⟩

/-- A wall plane: normal `(1,0,0)`, distance 0. -/
def wall_plane : bsp_plane_t := ⟨⟨.fin 1, .fin 0, .fin 0⟩, .fin 0⟩

/-- The floor plane with both references the sentinel. -/
def floor_node : bsp_node_t := ⟨floor_plane, -1, -1⟩

/-- The wall plane with both references the sentinel. -/
def wall_node : bsp_node_t := ⟨wall_plane, -1, -1⟩

/-- The floor plane with node 1 in its ahead space. -/
def corner_root : bsp_node_t := ⟨floor_plane, 1, -1⟩

/-- The floor plane with node 1 behind it. -/
def chain_root : bsp_node_t := ⟨floor_plane, -1, 1⟩

/-- A corner: the floor plane with the wall plane in its ahead space. -/
def corner_tree : bsp_t := ⟨[corner_root, wall_node]⟩

/-- A behind-chain: the floor plane, then the wall plane behind it. -/
def chain_tree : bsp_t := ⟨[chain_root, wall_node]⟩

/-- A sphere of radius 1 centred at `(0,y,0)`. -/
def sphere_at_height (y : ℚ) : sphere_t := ⟨⟨.fin 0, .fin y, .fin 0⟩, .fin 1⟩

/-- A sphere of radius 1 pressed into the corner, centred at `(-1/2, 1/2, 0)`. -/
def corner_sphere : sphere_t := ⟨⟨.fin (-1/2), .fin (1/2), .fin 0⟩, .fin 1⟩

/-- A sphere of radius 1 centred at `(-1/2, -2, 0)`: three units below the
floor plane, one and a half behind the wall plane. -/
def chain_sphere : sphere_t := ⟨⟨.fin (-1/2), .fin (-2), .fin 0⟩, .fin 1⟩

/-- An output buffer of `k` entries, each holding `(7,7,7)`. -/
def fresh_clips (k : Nat) : List clip_t := List.replicate k ⟨⟨.fin 7, .fin 7, .fin 7⟩⟩


/-! ## Supporting lemmas: the order of floats -/

theorem float_fin_lt_fin (a b : ℚ) : (float_t.fin a < float_t.fin b) ↔ a < b := Iff.rfl

theorem float_fin_le_fin (a b : ℚ) : (float_t.fin a ≤ float_t.fin b) ↔ a ≤ b := Iff.rfl

theorem float_lt_asymm {a b : float_t} (h1 : a < b) : ¬ b < a := by
  intro h2
  cases a <;> cases b <;>
    first
    | exact False.elim h1
    | exact False.elim h2
    | exact @lt_asymm ℚ _ _ _ h1 h2

theorem float_lt_irrefl (a : float_t) : ¬ a < a := fun h => float_lt_asymm h h

theorem float_not_lt_of_le {a b : float_t} (h1 : a ≤ b) : ¬ b < a := by
  intro h2
  cases a <;> cases b <;>
    first
    | exact False.elim h1
    | exact False.elim h2
    | exact @not_lt_of_le ℚ _ _ _ h1 h2

theorem float_le_of_lt {a b : float_t} (h1 : a < b) : a ≤ b := by
  cases a <;> cases b <;>
    first
    | exact trivial
    | exact False.elim h1
    | exact @le_of_lt ℚ _ _ _ h1

theorem float_le_trans {a b c : float_t} (h1 : a ≤ b) (h2 : b ≤ c) : a ≤ c := by
  cases a <;> cases b <;> cases c <;>
    first
    | exact trivial
    | exact False.elim h1
    | exact False.elim h2
    | exact @le_trans ℚ _ _ _ _ h1 h2

theorem float_lt_of_lt_of_le {a b c : float_t} (h1 : a < b) (h2 : b ≤ c) : a < c := by
  cases a <;> cases b <;> cases c <;>
    first
    | exact trivial
    | exact False.elim h1
    | exact False.elim h2
    | exact @lt_of_lt_of_le ℚ _ _ _ _ h1 h2

theorem float_lt_of_le_of_lt {a b c : float_t} (h1 : a ≤ b) (h2 : b < c) : a < c := by
  cases a <;> cases b <;> cases c <;>
    first
    | exact trivial
    | exact False.elim h1
    | exact False.elim h2
    | exact @lt_of_le_of_lt ℚ _ _ _ _ h1 h2

/-- A float that is below or above something is not a NaN, so it equals itself. -/
theorem float_le_refl_of_lt_left {a b : float_t} (h : a < b) : a ≤ a := by
  cases a <;> cases b <;>
    first
    | exact trivial
    | exact False.elim h
    | exact @le_refl ℚ _ _

theorem float_le_refl_of_lt_right {a b : float_t} (h : a < b) : b ≤ b := by
  cases a <;> cases b <;>
    first
    | exact trivial
    | exact False.elim h
    | exact @le_refl ℚ _ _

theorem float_le_refl_of_le_right {a b : float_t} (h : a ≤ b) : b ≤ b := by
  cases a <;> cases b <;>
    first
    | exact trivial
    | exact False.elim h
    | exact @le_refl ℚ _ _

/-- Floats that are not NaN are totally ordered. -/
theorem float_le_of_not_lt {a b : float_t} (ha : a ≤ a) (hb : b ≤ b) (h : ¬ a < b) :
    b ≤ a := by
  cases a <;> cases b <;>
    first
    | exact trivial
    | exact False.elim ha
    | exact False.elim hb
    | exact False.elim (h trivial)
    | exact @le_of_not_lt ℚ _ _ _ h

/-! ## Supporting lemmas: the traversal -/

section traversal

variable {ops : float_ops}

theorem store_from_nil (clips : List clip_t) (n : Nat) : store_from clips n [] = clips := by
  simp [store_from]

theorem store_from_length (clips : List clip_t) (n : Nat) (L : List vec3_t)
    (h : n + L.length ≤ clips.length) : (store_from clips n L).length = clips.length := by
  simp [store_from]; omega

theorem store_from_append (clips : List clip_t) (n : Nat) (L1 L2 : List vec3_t)
    (h : n + L1.length ≤ clips.length) :
    store_from (store_from clips n L1) (n + L1.length) L2 = store_from clips n (L1 ++ L2) := by
  have hn : n ≤ clips.length := by omega
  have h1 : (List.take n clips).length = n := by simp [hn]
  have e1 : List.take (n + L1.length) (store_from clips n L1)
      = List.take n clips ++ L1.map clip_t.mk := by
    unfold store_from
    rw [List.take_append_eq_append_take]
    simp [h1]
  have e2 : List.drop (n + L1.length + L2.length) (store_from clips n L1)
      = List.drop (n + (L1 ++ L2).length) clips := by
    unfold store_from
    rw [List.drop_append_eq_append_drop]
    simp [h1]
    rw [List.drop_eq_nil_of_le (by simp [h1])]
    simp; congr 1; omega
  unfold store_from at *
  rw [e1, e2]; simp

theorem store_from_single (clips : List clip_t) (n : Nat) (v : vec3_t)
    (h : n < clips.length) : clips.set n ⟨v⟩ = store_from clips n [v] := by
  unfold store_from
  simp [List.set_eq_take_append_cons_drop, h]

theorem bsp_clip_R_sentinel (fuel : Nat) (clips : List clip_t) (bsp : bsp_t)
    (sphere : sphere_t) (min_plane : bsp_plane_t) (num_clips : Int) :
    bsp_clip_R ops fuel clips bsp (-1) sphere min_plane num_clips = .done clips num_clips := by
  cases fuel <;> simp [bsp_clip_R]

theorem clip_write_store (clips : List clip_t) (n : Nat) (v : vec3_t) (h : n < clips.length) :
    clip_write clips (n : Int) v = .done (store_from clips n [v]) ((n + 1 : Nat) : Int) := by
  unfold clip_write
  simp [h, store_from_single]

/-- The buffer traversal refines the list form whenever the latter returns and
the buffer has room for its clips. -/
theorem bsp_clip_R_refines (bsp : bsp_t) (sphere : sphere_t) :
    ∀ (fuel : Nat) (clips : List clip_t) (node_id : Int) (min_plane : bsp_plane_t) (n : Nat)
      (L : List vec3_t),
      clip_list ops fuel bsp node_id sphere min_plane = some L →
      n + L.length ≤ clips.length →
      bsp_clip_R ops fuel clips bsp node_id sphere min_plane (n : Int)
        = .done (store_from clips n L) ((n + L.length : Nat) : Int) := by
  intro fuel
  induction fuel with
  | zero =>
    intro clips node_id mp n L hL _
    unfold clip_list at hL
    unfold bsp_clip_R
    by_cases hs : node_id = -1
    · simp [hs] at hL ⊢
      subst hL
      simp [store_from_nil]
    · simp [hs] at hL
  | succ fuel ih =>
    intro clips node_id mp n L hL hcap
    unfold clip_list at hL
    unfold bsp_clip_R
    by_cases hs : node_id = -1
    · simp [hs] at hL ⊢
      subst hL
      simp [store_from_nil]
    · simp only [hs, if_false] at hL ⊢
      cases hnode : node_at bsp node_id with
      | none => simp [hnode] at hL
      | some node =>
        simp only [hnode] at hL ⊢
        -- the ahead part
        have hahead : ∃ L1, (if max_dist ops sphere node > float_t.fin 0 then
              clip_list ops fuel bsp node.ahead sphere mp else some []) = some L1 := by
          cases h : (if max_dist ops sphere node > float_t.fin 0 then
              clip_list ops fuel bsp node.ahead sphere mp else some []) with
          | none => simp [h] at hL
          | some L1 => exact ⟨L1, rfl⟩
        obtain ⟨L1, hL1⟩ := hahead
        simp only [hL1] at hL
        have hA : n + L1.length ≤ clips.length →
            (if max_dist ops sphere node > float_t.fin 0 then
              bsp_clip_R ops fuel clips bsp node.ahead sphere mp (n : Int)
            else .done clips (n : Int))
              = .done (store_from clips n L1) ((n + L1.length : Nat) : Int) := by
          intro hc
          by_cases hmax : max_dist ops sphere node > float_t.fin 0
          · simp only [hmax, if_true] at hL1 ⊢
            exact ih clips node.ahead mp n L1 hL1 hc
          · simp only [hmax, if_false] at hL1 ⊢
            simp at hL1
            subst hL1
            simp [store_from_nil]
        by_cases hmin : min_dist ops sphere node < float_t.fin 0
        · simp only [hmin, if_true] at hL ⊢
          by_cases hb : node.behind = -1
          · simp only [hb, if_true] at hL ⊢
            simp at hL
            subst hL
            simp only [List.length_append, List.length_singleton] at hcap
            rw [hA (by omega)]
            simp only
            rw [clip_write_store _ _ _ (by rw [store_from_length _ _ _ (by omega)]; omega)]
            simp only
            rw [bsp_clip_R_sentinel, store_from_append _ _ _ _ (by omega)]
            simp [Nat.add_assoc]
          · simp only [hb, if_false] at hL ⊢
            cases hL2 : clip_list ops fuel bsp node.behind sphere
                (update_min_plane ops sphere node mp) with
            | none => simp [hL2] at hL
            | some L2 =>
              simp [hL2] at hL
              subst hL
              simp only [List.length_append] at hcap
              rw [hA (by omega)]
              simp only
              rw [ih _ _ _ _ _ hL2 (by rw [store_from_length _ _ _ (by omega)]; omega),
                store_from_append _ _ _ _ (by omega)]
              simp [Nat.add_assoc]
        · simp only [hmin, if_false] at hL ⊢
          simp at hL
          subst hL
          rw [hA hcap]

theorem node_at_natCast (bsp : bsp_t) (i : Nat) : node_at bsp (i : Int) = bsp.nodes[i]? := by
  simp [node_at]

theorem natCast_ne_sentinel (i : Nat) : (i : Int) ≠ -1 := by omega

theorem TreeAt_sentinel_eq (bsp : bsp_t) (S : Finset Nat) (h : TreeAt bsp (-1) S) : S = ∅ := by
  generalize hr : (-1 : Int) = r at h
  cases h with
  | sentinel => rfl
  | node i nd A B _ _ _ _ _ _ => omega

theorem TreeAt_subset_range (bsp : bsp_t) (r : Int) (S : Finset Nat) (h : TreeAt bsp r S) :
    S ⊆ Finset.range bsp.nodes.length := by
  induction h with
  | sentinel => simp
  | node i nd A B hnd _ _ _ _ _ ihA ihB =>
    intro k hk
    simp only [Finset.mem_insert, Finset.mem_union] at hk
    rcases hk with rfl | hk | hk
    · have := (List.getElem?_eq_some_iff.mp hnd).1
      simpa using this
    · exact ihA hk
    · exact ihB hk

theorem TreeAt_card_le (bsp : bsp_t) (r : Int) (S : Finset Nat) (h : TreeAt bsp r S) :
    S.card ≤ bsp.nodes.length := by
  have := Finset.card_le_card (TreeAt_subset_range bsp r S h)
  simpa using this

theorem Reached_trans (bsp : bsp_t) (sphere : sphere_t) (a b c : Nat)
    (hab : Reached ops bsp sphere a b) (hbc : Reached ops bsp sphere b c) :
    Reached ops bsp sphere a c := by
  induction hbc with
  | root => exact hab
  | ahead i j nd _ hnd hmax hj ih => exact Reached.ahead i j nd ih hnd hmax hj
  | behind i j nd _ hnd hmin hj ih => exact Reached.behind i j nd ih hnd hmin hj

theorem Reached_head (bsp : bsp_t) (sphere : sphere_t) (k i : Nat) (nd : bsp_node_t)
    (hk : bsp.nodes[k]? = some nd) :
    Reached ops bsp sphere k i ↔
      i = k ∨ (float_t.fin 0 < max_dist ops sphere nd ∧ ReachedFrom ops bsp sphere nd.ahead i)
        ∨ (min_dist ops sphere nd < float_t.fin 0 ∧
          ReachedFrom ops bsp sphere nd.behind i) := by
  constructor
  · intro h
    induction h with
    | root => exact Or.inl rfl
    | ahead i j nd2 hi hnd hmax hj ih =>
      rcases ih with rfl | ⟨hm, c, hc, hr⟩ | ⟨hm, c, hc, hr⟩
      · rw [hk] at hnd
        cases hnd
        exact Or.inr (Or.inl ⟨hmax, j, hj, Reached.root⟩)
      · exact Or.inr (Or.inl ⟨hm, c, hc, Reached.ahead _ j nd2 hr hnd hmax hj⟩)
      · exact Or.inr (Or.inr ⟨hm, c, hc, Reached.ahead _ j nd2 hr hnd hmax hj⟩)
    | behind i j nd2 hi hnd hmin hj ih =>
      rcases ih with rfl | ⟨hm, c, hc, hr⟩ | ⟨hm, c, hc, hr⟩
      · rw [hk] at hnd
        cases hnd
        exact Or.inr (Or.inr ⟨hmin, j, hj, Reached.root⟩)
      · exact Or.inr (Or.inl ⟨hm, c, hc, Reached.behind _ j nd2 hr hnd hmin hj⟩)
      · exact Or.inr (Or.inr ⟨hm, c, hc, Reached.behind _ j nd2 hr hnd hmin hj⟩)
  · rintro (rfl | ⟨hm, c, hc, hr⟩ | ⟨hm, c, hc, hr⟩)
    · exact Reached.root
    · exact Reached_trans bsp sphere k c i (Reached.ahead k c nd Reached.root hk hm hc) hr
    · exact Reached_trans bsp sphere k c i (Reached.behind k c nd Reached.root hk hm hc) hr

theorem ReachedFrom_sentinel (bsp : bsp_t) (sphere : sphere_t) (i : Nat) :
    ¬ ReachedFrom ops bsp sphere (-1) i := by
  rintro ⟨k, hk, _⟩
  omega

theorem clip_list_sentinel (fuel : Nat) (bsp : bsp_t) (sphere : sphere_t)
    (min_plane : bsp_plane_t) : clip_list ops fuel bsp (-1) sphere min_plane = some [] := by
  cases fuel <;> simp [clip_list]

theorem ReachedFrom_natCast (bsp : bsp_t) (sphere : sphere_t) (k i : Nat) :
    ReachedFrom ops bsp sphere (k : Int) i ↔ Reached ops bsp sphere k i := by
  constructor
  · rintro ⟨c, hc, h⟩
    have : k = c := by exact_mod_cast hc
    subst this
    exact h
  · intro h
    exact ⟨k, rfl, h⟩

/-- On a tree the list form returns, and its clips are counted by the reached
emitting nodes. -/
theorem tree_clip_list (bsp : bsp_t) (sphere : sphere_t) (r : Int) (S : Finset Nat)
    (h : TreeAt bsp r S) :
    ∀ (fuel : Nat), S.card ≤ fuel → ∀ (mp : bsp_plane_t),
      ∃ (L : List vec3_t) (E : Finset Nat),
        clip_list ops fuel bsp r sphere mp = some L ∧ E ⊆ S ∧
        (∀ j, j ∈ E ↔ ReachedFrom ops bsp sphere r j ∧ Emits ops bsp sphere j) ∧
        L.length = E.card := by
  induction h with
  | sentinel =>
    intro fuel _ mp
    refine ⟨[], ∅, clip_list_sentinel _ _ _ _, by simp, ?_, by simp⟩
    intro j
    simp [ReachedFrom_sentinel]
  | node i nd A B hnd hA hB hdis hiA hiB ihA ihB =>
    intro fuel hfuel mp
    have hcard : (insert i (A ∪ B)).card = A.card + B.card + 1 := by
      rw [Finset.card_insert_of_not_mem (by simp [hiA, hiB]), Finset.card_union_of_disjoint hdis]
    rw [hcard] at hfuel
    obtain ⟨f, rfl⟩ : ∃ f, fuel = f + 1 := ⟨fuel - 1, by omega⟩
    -- the ahead subtree
    have hahead : ∃ (L1 : List vec3_t) (E1 : Finset Nat),
        (if max_dist ops sphere nd > float_t.fin 0 then clip_list ops f bsp nd.ahead sphere mp
          else some [])
          = some L1 ∧ E1 ⊆ A ∧
        (∀ j, j ∈ E1 ↔ float_t.fin 0 < max_dist ops sphere nd ∧
          ReachedFrom ops bsp sphere nd.ahead j
          ∧ Emits ops bsp sphere j) ∧ L1.length = E1.card := by
      by_cases hmax : max_dist ops sphere nd > float_t.fin 0
      · obtain ⟨L1, E1, h1, h2, h3, h4⟩ := ihA f (by omega) mp
        refine ⟨L1, E1, by simp [hmax, h1], h2, ?_, h4⟩
        intro j
        rw [h3]
        simp [gt_iff_lt.mp hmax]
      · refine ⟨[], ∅, by simp [hmax], by simp, ?_, by simp⟩
        intro j
        simp [gt_iff_lt.not.mp hmax]
    obtain ⟨L1, E1, h1, hE1, hm1, hl1⟩ := hahead
    -- the behind part
    have hbehind : ∃ (L2 : List vec3_t) (E2 : Finset Nat),
        (if min_dist ops sphere nd < float_t.fin 0 then
            if nd.behind = -1 then
              some (L1 ++ [(update_min_plane ops sphere nd mp).normal])
            else
              match clip_list ops f bsp nd.behind sphere (update_min_plane ops sphere nd mp) with
              | none => none
              | some behind_clips => some (L1 ++ behind_clips)
          else some L1) = some (L1 ++ L2) ∧ E2 ⊆ insert i B ∧
        (∀ j, j ∈ E2 ↔ min_dist ops sphere nd < float_t.fin 0 ∧
          ((j = i ∧ nd.behind = -1) ∨ (ReachedFrom ops bsp sphere nd.behind j
            ∧ Emits ops bsp sphere j))) ∧ L2.length = E2.card := by
      by_cases hmin : min_dist ops sphere nd < float_t.fin 0
      · by_cases hb : nd.behind = -1
        · refine ⟨[(update_min_plane ops sphere nd mp).normal], {i}, by simp [hmin, hb], by simp,
            ?_, by simp⟩
          intro j
          simp [hmin, hb, ReachedFrom_sentinel]
        · obtain ⟨L2, E2, h1, h2, h3, h4⟩ :=
            ihB f (by omega) (update_min_plane ops sphere nd mp)
          refine ⟨L2, E2, by simp [hmin, hb, h1],
            h2.trans (Finset.subset_insert _ _), ?_, h4⟩
          intro j
          rw [h3]
          simp [hmin, hb]
      · refine ⟨[], ∅, by simp [hmin], by simp, ?_, by simp⟩
        intro j
        simp [hmin]
    obtain ⟨L2, E2, h2, hE2, hm2, hl2⟩ := hbehind
    have hdisj : Disjoint E1 E2 := by
      rw [Finset.disjoint_left]
      intro j hj1 hj2
      have hjA := hE1 hj1
      have hjB := hE2 hj2
      simp only [Finset.mem_insert] at hjB
      rcases hjB with rfl | hjB
      · exact hiA hjA
      · exact (Finset.disjoint_left.mp hdis) hjA hjB
    refine ⟨L1 ++ L2, E1 ∪ E2, ?_, ?_, ?_, ?_⟩
    · unfold clip_list
      simp only [natCast_ne_sentinel, if_false, node_at_natCast, hnd, h1]
      exact h2
    · intro j hj
      simp only [Finset.mem_union] at hj
      simp only [Finset.mem_insert, Finset.mem_union]
      rcases hj with hj | hj
      · exact Or.inr (Or.inl (hE1 hj))
      · have := hE2 hj
        simp only [Finset.mem_insert] at this
        rcases this with h | h
        · exact Or.inl h
        · exact Or.inr (Or.inr h)
    · intro j
      rw [Finset.mem_union, hm1, hm2, ReachedFrom_natCast, Reached_head bsp sphere i j nd hnd]
      constructor
      · rintro (⟨hmax, hr, he⟩ | ⟨hmin, ⟨rfl, hb⟩ | ⟨hr, he⟩⟩)
        · exact ⟨Or.inr (Or.inl ⟨hmax, hr⟩), he⟩
        · exact ⟨Or.inl rfl, nd, hnd, hb, hmin⟩
        · exact ⟨Or.inr (Or.inr ⟨hmin, hr⟩), he⟩
      · rintro ⟨rfl | ⟨hmax, hr⟩ | ⟨hmin, hr⟩, he⟩
        · obtain ⟨nd2, hnd2, hb, hmin⟩ := he
          rw [hnd] at hnd2
          cases hnd2
          exact Or.inr ⟨hmin, Or.inl ⟨rfl, hb⟩⟩
        · exact Or.inl ⟨hmax, hr, he⟩
        · exact Or.inr ⟨hmin, Or.inr ⟨hr, he⟩⟩
    · rw [List.length_append, Finset.card_union_of_disjoint hdisj, hl1, hl2]

theorem clip_write_cases (clips : List clip_t) (n : Int) (v : vec3_t) :
    (∃ c m, clip_write clips n v = .done c m) ∨ clip_write clips n v = .overrun := by
  unfold clip_write
  split
  · exact Or.inl ⟨_, _, rfl⟩
  · exact Or.inr rfl

/-- On a tree the traversal needs no more fuel than the tree has nodes: the
outcome is the same for every larger fuel, and it is a return or an overrun of
the buffer. -/
theorem tree_run (bsp : bsp_t) (sphere : sphere_t) (r : Int) (S : Finset Nat)
    (h : TreeAt bsp r S) :
    ∀ (f1 f2 : Nat), S.card ≤ f1 → S.card ≤ f2 →
      ∀ (clips : List clip_t) (mp : bsp_plane_t) (n : Int),
        bsp_clip_R ops f1 clips bsp r sphere mp n = bsp_clip_R ops f2 clips bsp r sphere mp n ∧
        ((∃ c m, bsp_clip_R ops f1 clips bsp r sphere mp n = .done c m) ∨
          bsp_clip_R ops f1 clips bsp r sphere mp n = .overrun) := by
  induction h with
  | sentinel =>
    intro f1 f2 _ _ clips mp n
    simp [bsp_clip_R_sentinel]
  | node i nd A B hnd hA hB hdis hiA hiB ihA ihB =>
    intro f1 f2 h1 h2 clips mp n
    have hcard : (insert i (A ∪ B)).card = A.card + B.card + 1 := by
      rw [Finset.card_insert_of_not_mem (by simp [hiA, hiB]), Finset.card_union_of_disjoint hdis]
    rw [hcard] at h1 h2
    obtain ⟨g1, rfl⟩ : ∃ g, f1 = g + 1 := ⟨f1 - 1, by omega⟩
    obtain ⟨g2, rfl⟩ : ∃ g, f2 = g + 1 := ⟨f2 - 1, by omega⟩
    have hX : (if max_dist ops sphere nd > float_t.fin 0 then
            bsp_clip_R ops g1 clips bsp nd.ahead sphere mp n
          else .done clips n)
        = (if max_dist ops sphere nd > float_t.fin 0 then
            bsp_clip_R ops g2 clips bsp nd.ahead sphere mp n
          else .done clips n) ∧
        ((∃ c m, (if max_dist ops sphere nd > float_t.fin 0 then
            bsp_clip_R ops g1 clips bsp nd.ahead sphere mp n
          else .done clips n) = .done c m) ∨
          (if max_dist ops sphere nd > float_t.fin 0 then
            bsp_clip_R ops g1 clips bsp nd.ahead sphere mp n
          else .done clips n) = .overrun) := by
      by_cases hmax : max_dist ops sphere nd > float_t.fin 0
      · simp only [hmax, if_true]
        exact ihA g1 g2 (by omega) (by omega) clips mp n
      · simp [hmax]
    obtain ⟨hXeq, hXc⟩ := hX
    unfold bsp_clip_R
    simp only [natCast_ne_sentinel, if_false, node_at_natCast, hnd]
    rw [← hXeq]
    rcases hXc with ⟨c, m, hc⟩ | hc
    · rw [hc]
      simp only
      by_cases hmin : min_dist ops sphere nd < float_t.fin 0
      · simp only [hmin, if_true]
        have hW : (∃ c2 m2, (if nd.behind = -1 then
              clip_write c m (update_min_plane ops sphere nd mp).normal else .done c m)
              = .done c2 m2) ∨
            (if nd.behind = -1 then
              clip_write c m (update_min_plane ops sphere nd mp).normal else .done c m)
              = .overrun := by
          by_cases hb : nd.behind = -1
          · simp only [hb, if_true]
            exact clip_write_cases _ _ _
          · simp only [hb, if_false]
            exact Or.inl ⟨_, _, rfl⟩
        rcases hW with ⟨c2, m2, hc2⟩ | hc2
        · rw [hc2]
          simp only
          exact ihB g1 g2 (by omega) (by omega) c2 (update_min_plane ops sphere nd mp) m2
        · rw [hc2]
          simp
      · simp [hmin]
    · rw [hc]
      simp

theorem store_from_getElem?_mid (clips : List clip_t) (n : Nat) (L : List vec3_t)
    (h : n + L.length ≤ clips.length) (k : Nat) (hk : k < L.length) :
    (store_from clips n L)[n + k]? = (L[k]?).map clip_t.mk := by
  have h1 : (List.take n clips).length = n := by simp; omega
  unfold store_from
  rw [List.append_assoc, List.getElem?_append_right (by omega), h1,
    List.getElem?_append_left (by simpa using hk)]
  simp

theorem store_from_getElem?_out (clips : List clip_t) (n : Nat) (L : List vec3_t)
    (h : n + L.length ≤ clips.length) (k : Nat) (hk : k < n ∨ n + L.length ≤ k) :
    (store_from clips n L)[k]? = clips[k]? := by
  have h1 : (List.take n clips).length = n := by simp; omega
  unfold store_from
  rcases hk with hk | hk
  · rw [List.append_assoc, List.getElem?_append_left (by omega), List.getElem?_take_of_lt hk]
  · rw [List.getElem?_append_right (by simp [h1]; omega)]
    simp only [List.length_append, List.length_map, h1, List.getElem?_drop]
    congr 1
    omega

theorem Descent_sentinel (bsp : bsp_t) (sphere : sphere_t) (p : bsp_plane_t)
    (path : List (Nat × Bool)) (r2 : Int) (p2 : bsp_plane_t)
    (h : Descent ops bsp sphere (-1) p path r2 p2) : path = [] ∧ r2 = -1 ∧ p2 = p := by
  generalize hr : (-1 : Int) = r at h
  cases h with
  | here => exact ⟨rfl, rfl, rfl⟩
  | ahead i nd _ _ _ _ _ _ _ => omega
  | behind i nd _ _ _ _ _ _ _ => omega

theorem Descent_natCast (bsp : bsp_t) (sphere : sphere_t) (i : Nat) (p : bsp_plane_t)
    (path : List (Nat × Bool)) (r2 : Int) (p2 : bsp_plane_t)
    (h : Descent ops bsp sphere (i : Int) p path r2 p2) :
    (path = [] ∧ r2 = (i : Int) ∧ p2 = p) ∨
    (∃ nd rest, bsp.nodes[i]? = some nd ∧ float_t.fin 0 < max_dist ops sphere nd ∧
      path = (i, false) :: rest ∧ Descent ops bsp sphere nd.ahead p rest r2 p2) ∨
    (∃ nd rest, bsp.nodes[i]? = some nd ∧ min_dist ops sphere nd < float_t.fin 0 ∧
      path = (i, true) :: rest ∧
      Descent ops bsp sphere nd.behind (update_min_plane ops sphere nd p) rest r2 p2) := by
  generalize hr : (i : Int) = r at h
  cases h with
  | here => exact Or.inl ⟨rfl, rfl, rfl⟩
  | ahead j nd _ rest _ _ hnd hmax hd =>
    have : i = j := by exact_mod_cast hr
    subst this
    exact Or.inr (Or.inl ⟨nd, rest, hnd, hmax, rfl, hd⟩)
  | behind j nd _ rest _ _ hnd hmin hd =>
    have : i = j := by exact_mod_cast hr
    subst this
    exact Or.inr (Or.inr ⟨nd, rest, hnd, hmin, rfl, hd⟩)

/-- On a tree a chain of recursive calls passes at most as many nodes as the
tree has. -/
theorem tree_descent_length (bsp : bsp_t) (sphere : sphere_t) (r : Int) (S : Finset Nat)
    (h : TreeAt bsp r S) :
    ∀ (p : bsp_plane_t) (path : List (Nat × Bool)) (r2 : Int) (p2 : bsp_plane_t),
      Descent ops bsp sphere r p path r2 p2 → path.length ≤ S.card := by
  induction h with
  | sentinel =>
    intro p path r2 p2 hd
    rw [(Descent_sentinel bsp sphere p path r2 p2 hd).1]
    simp
  | node i nd A B hnd hA hB hdis hiA hiB ihA ihB =>
    intro p path r2 p2 hd
    have hcard : (insert i (A ∪ B)).card = A.card + B.card + 1 := by
      rw [Finset.card_insert_of_not_mem (by simp [hiA, hiB]), Finset.card_union_of_disjoint hdis]
    rw [hcard]
    rcases Descent_natCast bsp sphere i p path r2 p2 hd with
      ⟨rfl, _, _⟩ | ⟨nd2, rest, hnd2, _, rfl, hd2⟩ | ⟨nd2, rest, hnd2, _, rfl, hd2⟩
    · simp
    · rw [hnd] at hnd2
      cases hnd2
      have := ihA p rest r2 p2 hd2
      simp only [List.length_cons]
      omega
    · rw [hnd] at hnd2
      cases hnd2
      have := ihB _ rest r2 p2 hd2
      simp only [List.length_cons]
      omega

theorem update_min_plane_distance (sphere : sphere_t) (nd : bsp_node_t) (p : bsp_plane_t) :
    (update_min_plane ops sphere nd p).distance
      = float_max p.distance (min_dist ops sphere nd) := by
  unfold update_min_plane float_max
  by_cases h : p.distance < min_dist ops sphere nd
  · simp [h]
  · simp [h]

/-- A well-formed tree queried with enough fuel and a buffer of at least node
count capacity: the list form returns, its clips are counted by the reached
emitting nodes, and `bsp_clip_sphere` stores them from index 0. -/
theorem wf_sphere_run (bsp : bsp_t) (sphere : sphere_t) (clips : List clip_t) (fuel : Nat)
    (hwf : WellFormed bsp) (hcap : bsp.nodes.length ≤ clips.length)
    (hfuel : bsp.nodes.length ≤ fuel) :
    ∃ (L : List vec3_t) (E : Finset Nat),
      clip_list ops fuel bsp 0 sphere initial_plane = some L ∧
      L.length ≤ bsp.nodes.length ∧
      (∀ j, j ∈ E ↔ Reached ops bsp sphere 0 j ∧ Emits ops bsp sphere j) ∧
      L.length = E.card ∧
      bsp_clip_sphere ops fuel clips bsp sphere = .done (store_from clips 0 L) (L.length : Int) := by
  obtain ⟨S, hS⟩ := hwf
  have hSc := TreeAt_card_le bsp 0 S hS
  obtain ⟨L, E, hL, hES, hE, hlen⟩ :=
    tree_clip_list bsp sphere 0 S hS fuel (by omega) initial_plane
  have hle : L.length ≤ bsp.nodes.length := by
    rw [hlen]
    exact (Finset.card_le_card hES).trans hSc
  refine ⟨L, E, hL, hle, ?_, hlen, ?_⟩
  · intro j
    rw [hE j]
    have := @ReachedFrom_natCast ops bsp sphere 0 j
    simp only [Nat.cast_zero] at this
    rw [this]
  · have := bsp_clip_R_refines bsp sphere fuel clips 0 initial_plane 0 L hL (by omega)
    simpa [bsp_clip_sphere] using this

theorem IsChain_sentinel (bsp : bsp_t) (chain : List bsp_node_t) (h : IsChain bsp (-1) chain) :
    chain = [] := by
  cases chain with
  | nil => rfl
  | cons nd rest =>
    simp [IsChain, node_at] at h

/-- Along a behind-chain of nodes with negative `min_dist` the list form gives
one clip: the normal of the binding plane updated at every node in turn. -/
theorem chain_clip_list (bsp : bsp_t) (sphere : sphere_t) :
    ∀ (chain : List bsp_node_t) (r : Int) (p : bsp_plane_t) (fuel : Nat),
      IsChain bsp r chain → chain ≠ [] → (∀ nd ∈ chain, min_dist ops sphere nd < float_t.fin 0) →
      chain.length ≤ fuel →
      clip_list ops fuel bsp r sphere p
        = some [(chain.foldl (fun q nd => update_min_plane ops sphere nd q) p).normal] := by
  intro chain
  induction chain with
  | nil => intro r p fuel _ h; exact absurd rfl h
  | cons nd rest ih =>
    intro r p fuel hch _ hneg hfuel
    obtain ⟨hnode, hahead, hrest⟩ := hch
    have hr : r ≠ -1 := by
      rintro rfl
      simp [node_at] at hnode
    obtain ⟨f, rfl⟩ : ∃ f, fuel = f + 1 := ⟨fuel - 1, by simp at hfuel; omega⟩
    have hmin : min_dist ops sphere nd < float_t.fin 0 := hneg nd (List.mem_cons_self _ _)
    unfold clip_list
    simp only [hr, if_false, hnode, hahead, clip_list_sentinel, ite_self, hmin, if_true,
      List.nil_append, List.foldl_cons]
    by_cases hb : nd.behind = -1
    · rw [hb] at hrest
      rw [IsChain_sentinel bsp rest hrest]
      simp [hb]
    · have hne : rest ≠ [] := by
        rintro rfl
        exact hb hrest
      simp only [hb, if_false]
      rw [ih nd.behind (update_min_plane ops sphere nd p) f hrest hne
        (fun x hx => hneg x (List.mem_cons_of_mem _ hx)) (by simp at hfuel; omega)]

theorem chain_fold_fixed (sphere : sphere_t) :
    ∀ (chain : List bsp_node_t) (p : bsp_plane_t),
      (∀ nd ∈ chain, ¬ p.distance < min_dist ops sphere nd) →
      chain.foldl (fun q nd => update_min_plane ops sphere nd q) p = p := by
  intro chain
  induction chain with
  | nil => intro p _; rfl
  | cons nd rest ih =>
    intro p h
    have h0 : ¬ (min_dist ops sphere nd > p.distance) := h nd (List.mem_cons_self _ _)
    have hu : update_min_plane ops sphere nd p = p := by simp [update_min_plane, h0]
    rw [List.foldl_cons, hu]
    exact ih p (fun x hx => h x (List.mem_cons_of_mem _ hx))

/-- The binding plane at the end of a chain is the plane of the first node
with the greatest `min_dist`, when that value beats the starting distance. -/
theorem chain_fold_normal (sphere : sphere_t) :
    ∀ (chain : List bsp_node_t) (p : bsp_plane_t) (j : Nat) (ndj : bsp_node_t),
      chain[j]? = some ndj →
      (∀ (i : Nat) (nd : bsp_node_t), chain[i]? = some nd →
        min_dist ops sphere nd ≤ min_dist ops sphere ndj) →
      (∀ (i : Nat) (nd : bsp_node_t), i < j → chain[i]? = some nd →
        min_dist ops sphere nd < min_dist ops sphere ndj) →
      p.distance < min_dist ops sphere ndj →
      (chain.foldl (fun q nd => update_min_plane ops sphere nd q) p).normal
        = ndj.plane.normal := by
  intro chain
  induction chain with
  | nil => intro p j ndj hj; simp at hj
  | cons nd rest ih =>
    intro p j ndj hj hmax hfirst hgt
    cases j with
    | zero =>
      simp at hj
      subst hj
      have hu : update_min_plane ops sphere nd p
          = { distance := min_dist ops sphere nd, normal := nd.plane.normal } := by
        simp [update_min_plane, hgt]
      rw [List.foldl_cons, hu, chain_fold_fixed sphere rest]
      intro x hx
      obtain ⟨i, hi⟩ := List.getElem?_of_mem hx
      exact float_not_lt_of_le (hmax (i + 1) x (by simpa using hi))
    | succ j =>
      simp at hj
      rw [List.foldl_cons]
      apply ih (update_min_plane ops sphere nd p) j ndj hj
      · intro i x hi
        exact hmax (i + 1) x (by simpa using hi)
      · intro i x hij hi
        exact hfirst (i + 1) x (by omega) (by simpa using hi)
      · have h0 : min_dist ops sphere nd < min_dist ops sphere ndj :=
          hfirst 0 nd (by omega) (by simp)
        unfold update_min_plane
        split
        · exact h0
        · exact hgt

/-- Every plane reached by a descent into a node that writes a clip gives a
clip of the list form: the calls of a descent are calls the traversal makes. -/
theorem descent_clip_mem (bsp : bsp_t) (sphere : sphere_t) (r : Int) (p : bsp_plane_t)
    (path : List (Nat × Bool)) (r2 : Int) (p2 : bsp_plane_t)
    (h : Descent ops bsp sphere r p path r2 p2) :
    ∀ (e : Nat) (nd : bsp_node_t), r2 = (e : Int) → bsp.nodes[e]? = some nd →
      nd.behind = -1 → min_dist ops sphere nd < float_t.fin 0 →
      ∀ (fuel : Nat) (L : List vec3_t), clip_list ops fuel bsp r sphere p = some L →
        (update_min_plane ops sphere nd p2).normal ∈ L := by
  induction h with
  | here r p =>
    intro e nd hr hnd hb hmin fuel L hL
    subst hr
    cases fuel with
    | zero => simp [clip_list, natCast_ne_sentinel] at hL
    | succ f =>
      unfold clip_list at hL
      simp only [natCast_ne_sentinel, if_false, node_at_natCast, hnd, hmin, hb, if_true] at hL
      split at hL
      · simp at hL
      · simp at hL
        subst hL
        simp
  | ahead i nd0 p path r2 p2 hnd0 hmax hd ih =>
    intro e nd hr hnd hb hmin fuel L hL
    cases fuel with
    | zero => simp [clip_list, natCast_ne_sentinel] at hL
    | succ f =>
      unfold clip_list at hL
      simp only [natCast_ne_sentinel, if_false, node_at_natCast, hnd0, gt_iff_lt, hmax,
        if_true] at hL
      cases hL1 : clip_list ops f bsp nd0.ahead sphere p with
      | none => simp [hL1] at hL
      | some L1 =>
        have hmem := ih e nd hr hnd hb hmin f L1 hL1
        simp only [hL1] at hL
        split at hL
        · split at hL
          · simp at hL
            subst hL
            exact List.mem_append_left _ hmem
          · split at hL
            · simp at hL
            · simp at hL
              subst hL
              exact List.mem_append_left _ hmem
        · simp at hL
          subst hL
          exact hmem
  | behind i nd0 p path r2 p2 hnd0 hmin0 hd ih =>
    intro e nd hr hnd hb hmin fuel L hL
    cases fuel with
    | zero => simp [clip_list, natCast_ne_sentinel] at hL
    | succ f =>
      unfold clip_list at hL
      simp only [natCast_ne_sentinel, if_false, node_at_natCast, hnd0, hmin0, if_true] at hL
      split at hL
      · simp at hL
      · rename_i L1 hL1
        by_cases hb0 : nd0.behind = -1
        · rw [hb0] at hd
          obtain ⟨_, h2, h3⟩ := Descent_sentinel bsp sphere _ _ _ _ hd
          rw [h2] at hr
          exact absurd hr.symm (natCast_ne_sentinel e)
        · simp only [hb0, if_false] at hL
          cases hL2 : clip_list ops f bsp nd0.behind sphere (update_min_plane ops sphere nd0 p) with
          | none => simp [hL2] at hL
          | some L2 =>
            have hmem := ih e nd hr hnd hb hmin f L2 hL2
            simp [hL2] at hL
            subst hL
            exact List.mem_append_right _ hmem

end traversal

/-! ## Supporting lemmas: the recursive calls -/

section calls

variable {ops : float_ops}

theorem bsp_clip_R_calls_sentinel (fuel : Nat) (clips : List clip_t) (bsp : bsp_t)
    (sphere : sphere_t) (p : bsp_plane_t) (n : Int) :
    bsp_clip_R_calls ops fuel clips bsp (-1) sphere p n = (.done clips n, []) := by
  cases fuel <;> simp [bsp_clip_R_calls]

/-- The outcome beside the recorded calls is the outcome of `bsp_clip_R`. -/
theorem bsp_clip_R_calls_fst (bsp : bsp_t) (sphere : sphere_t) :
    ∀ (fuel : Nat) (clips : List clip_t) (node_id : Int) (p : bsp_plane_t) (n : Int),
      (bsp_clip_R_calls ops fuel clips bsp node_id sphere p n).1
        = bsp_clip_R ops fuel clips bsp node_id sphere p n := by
  intro fuel
  induction fuel with
  | zero =>
    intro clips node_id p n
    simp [bsp_clip_R_calls, bsp_clip_R]
  | succ fuel ih =>
    intro clips node_id p n
    unfold bsp_clip_R_calls bsp_clip_R
    by_cases hs : node_id = -1
    · simp [hs]
    · simp only [hs, if_false]
      cases hnode : node_at bsp node_id with
      | none => rfl
      | some nd =>
        simp only []
        by_cases hmax : max_dist ops sphere nd > float_t.fin 0
        · simp only [hmax, if_true]
          rw [ih clips nd.ahead p n]
          cases hA : bsp_clip_R ops fuel clips bsp nd.ahead sphere p n with
          | done c m =>
            simp only []
            by_cases hmin : min_dist ops sphere nd < float_t.fin 0
            · simp only [hmin, if_true]
              cases hW : (if nd.behind = -1 then
                  clip_write c m (update_min_plane ops sphere nd p).normal
                else clip_result.done c m) with
              | done c2 m2 => simp only []; exact ih _ _ _ _
              | out_of_fuel => rfl
              | bad_node => rfl
              | overrun => rfl
            · simp only [hmin, if_false]
          | out_of_fuel => rfl
          | bad_node => rfl
          | overrun => rfl
        · simp only [hmax, if_false]
          by_cases hmin : min_dist ops sphere nd < float_t.fin 0
          · simp only [hmin, if_true]
            cases hW : (if nd.behind = -1 then
                clip_write clips n (update_min_plane ops sphere nd p).normal
              else clip_result.done clips n) with
            | done c2 m2 => simp only []; exact ih _ _ _ _
            | out_of_fuel => rfl
            | bad_node => rfl
            | overrun => rfl
          · simp only [hmin, if_false]

/-- The calls recorded at a node: the ahead call and the calls below it when
`max_dist > 0`, followed by the behind call and the calls below it when that
call is made. -/
theorem bsp_clip_R_calls_succ (fuel : Nat) (clips : List clip_t) (bsp : bsp_t)
    (node_id : Int) (sphere : sphere_t) (p : bsp_plane_t) (n : Int) (nd : bsp_node_t)
    (hs : node_id ≠ -1) (hnode : node_at bsp node_id = some nd) :
    ∃ LA LB : List call_t,
      (bsp_clip_R_calls ops (fuel + 1) clips bsp node_id sphere p n).2 = LA ++ LB ∧
      (LA = [] ∨ (float_t.fin 0 < max_dist ops sphere nd ∧
        LA = ⟨node_id, p, false, nd.ahead, p⟩ ::
          (bsp_clip_R_calls ops fuel clips bsp nd.ahead sphere p n).2)) ∧
      (LB = [] ∨ (min_dist ops sphere nd < float_t.fin 0 ∧ ∃ (c : List clip_t) (m : Int),
        LB = ⟨node_id, p, true, nd.behind, update_min_plane ops sphere nd p⟩ ::
          (bsp_clip_R_calls ops fuel c bsp nd.behind sphere
            (update_min_plane ops sphere nd p) m).2)) := by
  by_cases hmax : max_dist ops sphere nd > float_t.fin 0
  · cases hA : (bsp_clip_R_calls ops fuel clips bsp nd.ahead sphere p n).1 with
    | done c m =>
      by_cases hmin : min_dist ops sphere nd < float_t.fin 0
      · cases hW : (if nd.behind = -1 then
            clip_write c m (update_min_plane ops sphere nd p).normal
          else clip_result.done c m) with
        | done c2 m2 =>
          refine ⟨_, _, ?_, Or.inr ⟨hmax, rfl⟩, Or.inr ⟨hmin, c2, m2, rfl⟩⟩
          conv_lhs => unfold bsp_clip_R_calls
          simp only [hs, if_false, hnode, hmax, if_true, hA, hmin, hW]
        | out_of_fuel =>
          refine ⟨_, [], ?_, Or.inr ⟨hmax, rfl⟩, Or.inl rfl⟩
          conv_lhs => unfold bsp_clip_R_calls
          simp only [hs, if_false, hnode, hmax, if_true, hA, hmin, hW, List.append_nil]
        | bad_node =>
          refine ⟨_, [], ?_, Or.inr ⟨hmax, rfl⟩, Or.inl rfl⟩
          conv_lhs => unfold bsp_clip_R_calls
          simp only [hs, if_false, hnode, hmax, if_true, hA, hmin, hW, List.append_nil]
        | overrun =>
          refine ⟨_, [], ?_, Or.inr ⟨hmax, rfl⟩, Or.inl rfl⟩
          conv_lhs => unfold bsp_clip_R_calls
          simp only [hs, if_false, hnode, hmax, if_true, hA, hmin, hW, List.append_nil]
      · refine ⟨_, [], ?_, Or.inr ⟨hmax, rfl⟩, Or.inl rfl⟩
        conv_lhs => unfold bsp_clip_R_calls
        simp only [hs, if_false, hnode, hmax, if_true, hA, hmin, List.append_nil]
    | out_of_fuel =>
      refine ⟨_, [], ?_, Or.inr ⟨hmax, rfl⟩, Or.inl rfl⟩
      conv_lhs => unfold bsp_clip_R_calls
      simp only [hs, if_false, hnode, hmax, if_true, hA, List.append_nil]
    | bad_node =>
      refine ⟨_, [], ?_, Or.inr ⟨hmax, rfl⟩, Or.inl rfl⟩
      conv_lhs => unfold bsp_clip_R_calls
      simp only [hs, if_false, hnode, hmax, if_true, hA, List.append_nil]
    | overrun =>
      refine ⟨_, [], ?_, Or.inr ⟨hmax, rfl⟩, Or.inl rfl⟩
      conv_lhs => unfold bsp_clip_R_calls
      simp only [hs, if_false, hnode, hmax, if_true, hA, List.append_nil]
  · by_cases hmin : min_dist ops sphere nd < float_t.fin 0
    · cases hW : (if nd.behind = -1 then
          clip_write clips n (update_min_plane ops sphere nd p).normal
        else clip_result.done clips n) with
      | done c2 m2 =>
        refine ⟨[], _, ?_, Or.inl rfl, Or.inr ⟨hmin, c2, m2, rfl⟩⟩
        conv_lhs => unfold bsp_clip_R_calls
        simp only [hs, if_false, hnode, hmax, hmin, if_true, hW, List.nil_append]
      | out_of_fuel =>
        refine ⟨[], [], ?_, Or.inl rfl, Or.inl rfl⟩
        conv_lhs => unfold bsp_clip_R_calls
        simp only [hs, if_false, hnode, hmax, hmin, if_true, hW, List.append_nil]
      | bad_node =>
        refine ⟨[], [], ?_, Or.inl rfl, Or.inl rfl⟩
        conv_lhs => unfold bsp_clip_R_calls
        simp only [hs, if_false, hnode, hmax, hmin, if_true, hW, List.append_nil]
      | overrun =>
        refine ⟨[], [], ?_, Or.inl rfl, Or.inl rfl⟩
        conv_lhs => unfold bsp_clip_R_calls
        simp only [hs, if_false, hnode, hmax, hmin, if_true, hW, List.append_nil]
    · refine ⟨[], [], ?_, Or.inl rfl, Or.inl rfl⟩
      conv_lhs => unfold bsp_clip_R_calls
      simp only [hs, if_false, hnode, hmax, hmin, List.append_nil]

theorem update_min_plane_ge (sphere : sphere_t) (nd : bsp_node_t) (p : bsp_plane_t)
    (T : float_t) (h : T ≤ p.distance) : T ≤ (update_min_plane ops sphere nd p).distance := by
  unfold update_min_plane
  split
  · next hgt => exact float_le_of_lt (float_lt_of_le_of_lt h hgt)
  · exact h

/-- Every recorded call is made by the invocation itself or by a recorded
call, at one of the two call sites, and the binding distance it was made with
is not below a bound on the starting distance. -/
theorem bsp_clip_R_calls_spec (bsp : bsp_t) (sphere : sphere_t) :
    ∀ (fuel : Nat) (clips : List clip_t) (node_id : Int) (p : bsp_plane_t) (n : Int),
      ∀ c ∈ (bsp_clip_R_calls ops fuel clips bsp node_id sphere p n).2,
        ((c.caller = node_id ∧ c.received = p) ∨
          ∃ c2 ∈ (bsp_clip_R_calls ops fuel clips bsp node_id sphere p n).2,
            c2.callee = c.caller ∧ c2.passed = c.received) ∧
        (∃ nd, node_at bsp c.caller = some nd ∧
          ((c.behind = false ∧ float_t.fin 0 < max_dist ops sphere nd ∧
              c.callee = nd.ahead ∧ c.passed = c.received) ∨
            (c.behind = true ∧ min_dist ops sphere nd < float_t.fin 0 ∧
              c.callee = nd.behind ∧
              c.passed = update_min_plane ops sphere nd c.received))) ∧
        (∀ T : float_t, T ≤ p.distance → T ≤ c.received.distance) := by
  intro fuel
  induction fuel with
  | zero =>
    intro clips node_id p n c hc
    simp [bsp_clip_R_calls] at hc
  | succ fuel ih =>
    intro clips node_id p n c hc
    by_cases hs : node_id = -1
    · rw [hs, bsp_clip_R_calls_sentinel] at hc
      simp at hc
    · cases hnode : node_at bsp node_id with
      | none =>
        unfold bsp_clip_R_calls at hc
        simp [hs, hnode] at hc
      | some nd =>
        obtain ⟨LA, LB, hlog, hLA, hLB⟩ :=
          @bsp_clip_R_calls_succ ops fuel clips bsp node_id sphere p n nd hs hnode
        rw [hlog] at hc ⊢
        rcases List.mem_append.mp hc with hcA | hcB
        · rcases hLA with rfl | ⟨hmax, rfl⟩
          · simp at hcA
          · rcases List.mem_cons.mp hcA with rfl | hsub
            · exact ⟨Or.inl ⟨rfl, rfl⟩, ⟨nd, hnode, Or.inl ⟨rfl, hmax, rfl, rfl⟩⟩,
                fun T hT => hT⟩
            · obtain ⟨hlink, hshape, hbound⟩ := ih clips nd.ahead p n c hsub
              refine ⟨Or.inr ?_, hshape, hbound⟩
              rcases hlink with ⟨h1, h2⟩ | ⟨c2, hc2, h1, h2⟩
              · exact ⟨⟨node_id, p, false, nd.ahead, p⟩,
                  List.mem_append_left _ (List.mem_cons_self _ _), h1.symm, h2.symm⟩
              · exact ⟨c2, List.mem_append_left _ (List.mem_cons_of_mem _ hc2), h1, h2⟩
        · rcases hLB with rfl | ⟨hmin, cl, m, rfl⟩
          · simp at hcB
          · rcases List.mem_cons.mp hcB with rfl | hsub
            · exact ⟨Or.inl ⟨rfl, rfl⟩, ⟨nd, hnode, Or.inr ⟨rfl, hmin, rfl, rfl⟩⟩,
                fun T hT => hT⟩
            · obtain ⟨hlink, hshape, hbound⟩ :=
                ih cl nd.behind (update_min_plane ops sphere nd p) m c hsub
              refine ⟨Or.inr ?_, hshape,
                fun T hT => hbound T (update_min_plane_ge sphere nd p T hT)⟩
              rcases hlink with ⟨h1, h2⟩ | ⟨c2, hc2, h1, h2⟩
              · exact ⟨⟨node_id, p, true, nd.behind, update_min_plane ops sphere nd p⟩,
                  List.mem_append_right _ (List.mem_cons_self _ _), h1.symm, h2.symm⟩
              · exact ⟨c2, List.mem_append_right _ (List.mem_cons_of_mem _ hc2), h1, h2⟩

/-- The calls recorded at a node when the invocation returns: the ahead part
returned, the write (if any) stayed inside the buffer, and the behind call (if
made) returned; both calls and all calls below them are recorded. -/
theorem bsp_clip_R_calls_done (fuel : Nat) (clips : List clip_t) (bsp : bsp_t)
    (node_id : Int) (sphere : sphere_t) (p : bsp_plane_t) (n : Int) (nd : bsp_node_t)
    (cl : List clip_t) (m : Int)
    (hs : node_id ≠ -1) (hnode : node_at bsp node_id = some nd)
    (hdone : (bsp_clip_R_calls ops (fuel + 1) clips bsp node_id sphere p n).1 = .done cl m) :
    ∃ LA LB : List call_t,
      (bsp_clip_R_calls ops (fuel + 1) clips bsp node_id sphere p n).2 = LA ++ LB ∧
      ((¬ float_t.fin 0 < max_dist ops sphere nd ∧ LA = []) ∨
        (float_t.fin 0 < max_dist ops sphere nd ∧ ∃ (c1 : List clip_t) (m1 : Int),
          (bsp_clip_R_calls ops fuel clips bsp nd.ahead sphere p n).1 = .done c1 m1 ∧
          LA = ⟨node_id, p, false, nd.ahead, p⟩ ::
            (bsp_clip_R_calls ops fuel clips bsp nd.ahead sphere p n).2)) ∧
      ((¬ min_dist ops sphere nd < float_t.fin 0 ∧ LB = []) ∨
        (min_dist ops sphere nd < float_t.fin 0 ∧ ∃ (c2 : List clip_t) (m2 : Int),
          (bsp_clip_R_calls ops fuel c2 bsp nd.behind sphere
            (update_min_plane ops sphere nd p) m2).1 = .done cl m ∧
          LB = ⟨node_id, p, true, nd.behind, update_min_plane ops sphere nd p⟩ ::
            (bsp_clip_R_calls ops fuel c2 bsp nd.behind sphere
              (update_min_plane ops sphere nd p) m2).2)) := by
  by_cases hmax : max_dist ops sphere nd > float_t.fin 0
  · cases hA : (bsp_clip_R_calls ops fuel clips bsp nd.ahead sphere p n).1 with
    | done c m1 =>
      by_cases hmin : min_dist ops sphere nd < float_t.fin 0
      · cases hW : (if nd.behind = -1 then
            clip_write c m1 (update_min_plane ops sphere nd p).normal
          else clip_result.done c m1) with
        | done c2 m2 =>
          have hB : (bsp_clip_R_calls ops fuel c2 bsp nd.behind sphere
              (update_min_plane ops sphere nd p) m2).1 = .done cl m := by
            rw [← hdone]
            conv_rhs => unfold bsp_clip_R_calls
            simp only [hs, if_false, hnode, hmax, if_true, hA, hmin, hW]
          refine ⟨_, _, ?_, Or.inr ⟨hmax, c, m1, rfl, rfl⟩, Or.inr ⟨hmin, c2, m2, hB, rfl⟩⟩
          conv_lhs => unfold bsp_clip_R_calls
          simp only [hs, if_false, hnode, hmax, if_true, hA, hmin, hW]
        | out_of_fuel =>
          exfalso
          unfold bsp_clip_R_calls at hdone
          simp [hs, hnode, hmax, hA, hmin, hW] at hdone
        | bad_node =>
          exfalso
          unfold bsp_clip_R_calls at hdone
          simp [hs, hnode, hmax, hA, hmin, hW] at hdone
        | overrun =>
          exfalso
          unfold bsp_clip_R_calls at hdone
          simp [hs, hnode, hmax, hA, hmin, hW] at hdone
      · refine ⟨_, [], ?_, Or.inr ⟨hmax, c, m1, rfl, rfl⟩, Or.inl ⟨hmin, rfl⟩⟩
        conv_lhs => unfold bsp_clip_R_calls
        simp only [hs, if_false, hnode, hmax, if_true, hA, hmin, List.append_nil]
    | out_of_fuel =>
      exfalso
      unfold bsp_clip_R_calls at hdone
      simp [hs, hnode, hmax, hA] at hdone
    | bad_node =>
      exfalso
      unfold bsp_clip_R_calls at hdone
      simp [hs, hnode, hmax, hA] at hdone
    | overrun =>
      exfalso
      unfold bsp_clip_R_calls at hdone
      simp [hs, hnode, hmax, hA] at hdone
  · by_cases hmin : min_dist ops sphere nd < float_t.fin 0
    · cases hW : (if nd.behind = -1 then
          clip_write clips n (update_min_plane ops sphere nd p).normal
        else clip_result.done clips n) with
      | done c2 m2 =>
        have hB : (bsp_clip_R_calls ops fuel c2 bsp nd.behind sphere
            (update_min_plane ops sphere nd p) m2).1 = .done cl m := by
          rw [← hdone]
          conv_rhs => unfold bsp_clip_R_calls
          simp only [hs, if_false, hnode, hmax, hmin, if_true, hW]
        refine ⟨[], _, ?_, Or.inl ⟨hmax, rfl⟩, Or.inr ⟨hmin, c2, m2, hB, rfl⟩⟩
        conv_lhs => unfold bsp_clip_R_calls
        simp only [hs, if_false, hnode, hmax, hmin, if_true, hW, List.nil_append]
      | out_of_fuel =>
        exfalso
        unfold bsp_clip_R_calls at hdone
        simp [hs, hnode, hmax, hmin, hW] at hdone
      | bad_node =>
        exfalso
        unfold bsp_clip_R_calls at hdone
        simp [hs, hnode, hmax, hmin, hW] at hdone
      | overrun =>
        exfalso
        unfold bsp_clip_R_calls at hdone
        simp [hs, hnode, hmax, hmin, hW] at hdone
    · refine ⟨[], [], ?_, Or.inl ⟨hmax, rfl⟩, Or.inl ⟨hmin, rfl⟩⟩
      conv_lhs => unfold bsp_clip_R_calls
      simp only [hs, if_false, hnode, hmax, hmin, List.append_nil]

theorem node_at_sentinel (bsp : bsp_t) : node_at bsp (-1) = none := by
  simp [node_at]

/-- When an invocation returns, the calls it makes at its own node are recorded,
and so are the calls every recorded call makes at its node. -/
theorem bsp_clip_R_calls_complete (bsp : bsp_t) (sphere : sphere_t) :
    ∀ (fuel : Nat) (clips : List clip_t) (node_id : Int) (p : bsp_plane_t) (n : Int)
      (cl : List clip_t) (m : Int),
      (bsp_clip_R_calls ops fuel clips bsp node_id sphere p n).1 = .done cl m →
      (∀ nd, node_at bsp node_id = some nd →
        (float_t.fin 0 < max_dist ops sphere nd →
          (⟨node_id, p, false, nd.ahead, p⟩ : call_t) ∈
            (bsp_clip_R_calls ops fuel clips bsp node_id sphere p n).2) ∧
        (min_dist ops sphere nd < float_t.fin 0 →
          (⟨node_id, p, true, nd.behind, update_min_plane ops sphere nd p⟩ : call_t) ∈
            (bsp_clip_R_calls ops fuel clips bsp node_id sphere p n).2)) ∧
      (∀ c ∈ (bsp_clip_R_calls ops fuel clips bsp node_id sphere p n).2,
        ∀ nd, node_at bsp c.callee = some nd →
          (float_t.fin 0 < max_dist ops sphere nd →
            (⟨c.callee, c.passed, false, nd.ahead, c.passed⟩ : call_t) ∈
              (bsp_clip_R_calls ops fuel clips bsp node_id sphere p n).2) ∧
          (min_dist ops sphere nd < float_t.fin 0 →
            (⟨c.callee, c.passed, true, nd.behind,
                update_min_plane ops sphere nd c.passed⟩ : call_t) ∈
              (bsp_clip_R_calls ops fuel clips bsp node_id sphere p n).2)) := by
  intro fuel
  induction fuel with
  | zero =>
    intro clips node_id p n cl m hdone
    by_cases hs : node_id = -1
    · subst hs
      simp [bsp_clip_R_calls, node_at_sentinel]
    · simp [bsp_clip_R_calls, hs] at hdone
  | succ fuel ih =>
    intro clips node_id p n cl m hdone
    by_cases hs : node_id = -1
    · subst hs
      rw [bsp_clip_R_calls_sentinel]
      simp [node_at_sentinel]
    · cases hnode : node_at bsp node_id with
      | none =>
        unfold bsp_clip_R_calls at hdone
        simp [hs, hnode] at hdone
      | some nd =>
        obtain ⟨LA, LB, hlog, hLA, hLB⟩ :=
          @bsp_clip_R_calls_done ops fuel clips bsp node_id sphere p n nd cl m hs hnode hdone
        rw [hlog]
        -- what the two parts hold
        have hA : (float_t.fin 0 < max_dist ops sphere nd →
              (⟨node_id, p, false, nd.ahead, p⟩ : call_t) ∈ LA) ∧
            ∀ c ∈ LA, ∀ nd2, node_at bsp c.callee = some nd2 →
              (float_t.fin 0 < max_dist ops sphere nd2 →
                (⟨c.callee, c.passed, false, nd2.ahead, c.passed⟩ : call_t) ∈ LA) ∧
              (min_dist ops sphere nd2 < float_t.fin 0 →
                (⟨c.callee, c.passed, true, nd2.behind,
                    update_min_plane ops sphere nd2 c.passed⟩ : call_t) ∈ LA) := by
          rcases hLA with ⟨hno, rfl⟩ | ⟨hmax, c1, m1, hsub, rfl⟩
          · exact ⟨fun h => absurd h hno, by simp⟩
          · obtain ⟨hroot, hclosed⟩ := ih clips nd.ahead p n c1 m1 hsub
            refine ⟨fun _ => List.mem_cons_self _ _, ?_⟩
            intro c hc nd2 hnd2
            rcases List.mem_cons.mp hc with rfl | hc
            · exact ⟨fun h => List.mem_cons_of_mem _ ((hroot nd2 hnd2).1 h),
                fun h => List.mem_cons_of_mem _ ((hroot nd2 hnd2).2 h)⟩
            · exact ⟨fun h => List.mem_cons_of_mem _ ((hclosed c hc nd2 hnd2).1 h),
                fun h => List.mem_cons_of_mem _ ((hclosed c hc nd2 hnd2).2 h)⟩
        have hB : (min_dist ops sphere nd < float_t.fin 0 →
              (⟨node_id, p, true, nd.behind, update_min_plane ops sphere nd p⟩ : call_t)
                ∈ LB) ∧
            ∀ c ∈ LB, ∀ nd2, node_at bsp c.callee = some nd2 →
              (float_t.fin 0 < max_dist ops sphere nd2 →
                (⟨c.callee, c.passed, false, nd2.ahead, c.passed⟩ : call_t) ∈ LB) ∧
              (min_dist ops sphere nd2 < float_t.fin 0 →
                (⟨c.callee, c.passed, true, nd2.behind,
                    update_min_plane ops sphere nd2 c.passed⟩ : call_t) ∈ LB) := by
          rcases hLB with ⟨hno, rfl⟩ | ⟨hmin, c2, m2, hsub, rfl⟩
          · exact ⟨fun h => absurd h hno, by simp⟩
          · obtain ⟨hroot, hclosed⟩ :=
              ih c2 nd.behind (update_min_plane ops sphere nd p) m2 cl m hsub
            refine ⟨fun _ => List.mem_cons_self _ _, ?_⟩
            intro c hc nd2 hnd2
            rcases List.mem_cons.mp hc with rfl | hc
            · exact ⟨fun h => List.mem_cons_of_mem _ ((hroot nd2 hnd2).1 h),
                fun h => List.mem_cons_of_mem _ ((hroot nd2 hnd2).2 h)⟩
            · exact ⟨fun h => List.mem_cons_of_mem _ ((hclosed c hc nd2 hnd2).1 h),
                fun h => List.mem_cons_of_mem _ ((hclosed c hc nd2 hnd2).2 h)⟩
        constructor
        · intro nd2 hnd2
          cases hnd2
          exact ⟨fun h => List.mem_append_left _ (hA.1 h),
            fun h => List.mem_append_right _ (hB.1 h)⟩
        · intro c hc nd2 hnd2
          rcases List.mem_append.mp hc with hc | hc
          · exact ⟨fun h => List.mem_append_left _ ((hA.2 c hc nd2 hnd2).1 h),
              fun h => List.mem_append_left _ ((hA.2 c hc nd2 hnd2).2 h)⟩
          · exact ⟨fun h => List.mem_append_right _ ((hB.2 c hc nd2 hnd2).1 h),
              fun h => List.mem_append_right _ ((hB.2 c hc nd2 hnd2).2 h)⟩

end calls

/-! ## Facts about the example inputs -/

theorem corner_tree_at_wall : TreeAt corner_tree (1 : Nat) (insert 1 (∅ ∪ ∅)) :=
  TreeAt.node 1 wall_node ∅ ∅ rfl TreeAt.sentinel TreeAt.sentinel
    (by simp) (by simp) (by simp)

theorem corner_tree_at_root : TreeAt corner_tree (0 : Nat) (insert 0 (insert 1 (∅ ∪ ∅) ∪ ∅)) :=
  TreeAt.node 0 corner_root (insert 1 (∅ ∪ ∅)) ∅ rfl corner_tree_at_wall
    TreeAt.sentinel (by simp) (by simp) (by simp)

theorem corner_tree_wf : WellFormed corner_tree := ⟨_, corner_tree_at_root⟩

/-- The corner query evaluated: the wall is clipped first (ahead subtree), then
the floor. -/
theorem corner_query_value :
    bsp_clip_sphere exact_ops 2 (fresh_clips 2) corner_tree corner_sphere
      = .done [⟨wall_plane.normal⟩, ⟨floor_plane.normal⟩] 2 := by
  norm_num [bsp_clip_sphere, bsp_clip_R, node_at, corner_tree, corner_root, wall_node,
    floor_plane, wall_plane, fresh_clips, min_dist, max_dist, exact_ops, update_min_plane,
    initial_plane, clip_write, corner_sphere, List.replicate, float_fin_lt_fin]

/-! ## The claims -/

/-- C1: for a well-formed BSP tree and any sphere, `bsp_clip_sphere` run on a
buffer whose capacity is at least the node count returns without overrunning
the buffer, and the number of clips it returns is at most the node count. -/
theorem C1_clip_count_le_node_count (ops : float_ops) (bsp : bsp_t) (sphere : sphere_t)
    (clips : List clip_t) (fuel : Nat) (hwf : WellFormed bsp) (hcap : bsp.nodes.length ≤ clips.length)
    (hfuel : bsp.nodes.length ≤ fuel) :
    ∃ (clips' : List clip_t) (n : Nat),
      bsp_clip_sphere ops fuel clips bsp sphere = .done clips' (n : Int) ∧
      n ≤ bsp.nodes.length ∧ clips'.length = clips.length := by
  obtain ⟨L, E, _, hle, _, _, hrun⟩ := @wf_sphere_run ops bsp sphere clips fuel hwf hcap hfuel
  exact ⟨store_from clips 0 L, L.length, hrun, hle, store_from_length _ _ _ (by omega)⟩

/-- The corner tree queried with a two-entry buffer: the query returns and its
count is at most the two nodes of the tree. -/
theorem C1_witness :
    WellFormed corner_tree ∧ corner_tree.nodes.length ≤ (fresh_clips 2).length ∧
    corner_tree.nodes.length ≤ 2 ∧
    ∃ (clips' : List clip_t) (n : Nat),
      bsp_clip_sphere exact_ops 2 (fresh_clips 2) corner_tree corner_sphere = .done clips' (n : Int) ∧
      n ≤ corner_tree.nodes.length ∧ clips'.length = (fresh_clips 2).length :=
  ⟨corner_tree_wf, by decide, by decide,
    C1_clip_count_le_node_count exact_ops corner_tree corner_sphere (fresh_clips 2) 2 corner_tree_wf
      (by decide) (by decide)⟩

/-- C3: for a tree of one node whose ahead and behind references are both the
sentinel, with `min_dist` the float computed at bsp.c line 18,
`bsp_clip_sphere` returns no clip (count 0, buffer untouched) when
`min_dist >= 0`, and returns exactly one clip, the node's plane normal stored
at index 0, when `-1000 < min_dist < 0`; `max_dist` plays no part. -/
theorem C3_single_node_tree (ops : float_ops) (nd : bsp_node_t) (sphere : sphere_t)
    (clips : List clip_t) (fuel : Nat) (hahead : nd.ahead = -1) (hbehind : nd.behind = -1)
    (hfuel : 1 ≤ fuel) :
    (float_t.fin 0 ≤ min_dist ops sphere nd →
      bsp_clip_sphere ops fuel clips ⟨[nd]⟩ sphere = .done clips 0) ∧
    (float_t.fin (-1000) < min_dist ops sphere nd → min_dist ops sphere nd < float_t.fin 0 →
      0 < clips.length →
      bsp_clip_sphere ops fuel clips ⟨[nd]⟩ sphere
        = .done (clips.set 0 ⟨nd.plane.normal⟩) 1) := by
  obtain ⟨f, rfl⟩ : ∃ f, fuel = f + 1 := ⟨fuel - 1, by omega⟩
  constructor
  · intro hmin
    have h : ¬ (min_dist ops sphere nd < float_t.fin 0) := float_not_lt_of_le hmin
    simp [bsp_clip_sphere, bsp_clip_R, node_at, hahead, bsp_clip_R_sentinel, h]
  · intro hlo hmin hcap
    have hu : update_min_plane ops sphere nd initial_plane
        = { distance := min_dist ops sphere nd, normal := nd.plane.normal } := by
      simp [update_min_plane, initial_plane, hlo]
    simp [bsp_clip_sphere, bsp_clip_R, node_at, hahead, hbehind, bsp_clip_R_sentinel, hmin,
      hu, clip_write, hcap]

/-- Three single-plane queries: the sphere at height 5 (`min_dist = 4`) gives
no clip; the sphere at height -2 (fully behind, `min_dist = -3`) and the sphere
at height -1/4 (straddling, `min_dist = -5/4`, `max_dist = 3/4`) each give the
one clip `(0,1,0)`. -/
theorem C3_witness :
    floor_node.ahead = -1 ∧ floor_node.behind = -1 ∧ 1 ≤ 1 ∧
    min_dist exact_ops (sphere_at_height 5) floor_node = float_t.fin 4 ∧
    bsp_clip_sphere exact_ops 1 (fresh_clips 1) ⟨[floor_node]⟩ (sphere_at_height 5)
      = .done (fresh_clips 1) 0 ∧
    min_dist exact_ops (sphere_at_height (-2)) floor_node = float_t.fin (-3) ∧
    bsp_clip_sphere exact_ops 1 (fresh_clips 1) ⟨[floor_node]⟩ (sphere_at_height (-2))
      = .done ((fresh_clips 1).set 0 ⟨floor_node.plane.normal⟩) 1 ∧
    min_dist exact_ops (sphere_at_height (-1/4)) floor_node = float_t.fin (-5/4) ∧
    bsp_clip_sphere exact_ops 1 (fresh_clips 1) ⟨[floor_node]⟩ (sphere_at_height (-1/4))
      = .done ((fresh_clips 1).set 0 ⟨floor_node.plane.normal⟩) 1 := by
  have h1 : min_dist exact_ops (sphere_at_height 5) floor_node = float_t.fin 4 := by
    norm_num [min_dist, exact_ops, sphere_at_height, floor_node, floor_plane]
  have h2 : min_dist exact_ops (sphere_at_height (-2)) floor_node = float_t.fin (-3) := by
    norm_num [min_dist, exact_ops, sphere_at_height, floor_node, floor_plane]
  have h3 : min_dist exact_ops (sphere_at_height (-1/4)) floor_node = float_t.fin (-5/4) := by
    norm_num [min_dist, exact_ops, sphere_at_height, floor_node, floor_plane]
  refine ⟨rfl, rfl, le_refl 1, h1, ?_, h2, ?_, h3, ?_⟩
  · exact (C3_single_node_tree exact_ops floor_node (sphere_at_height 5) (fresh_clips 1) 1
      rfl rfl (le_refl 1)).1 (by rw [h1]; decide)
  · exact (C3_single_node_tree exact_ops floor_node (sphere_at_height (-2)) (fresh_clips 1) 1
      rfl rfl (le_refl 1)).2 (by rw [h2]; decide) (by rw [h2]; decide)
      (by simp [fresh_clips])
  · exact (C3_single_node_tree exact_ops floor_node (sphere_at_height (-1/4)) (fresh_clips 1) 1
      rfl rfl (le_refl 1)).2 (by rw [h3, float_fin_lt_fin]; norm_num)
      (by rw [h3, float_fin_lt_fin]; norm_num)
      (by simp [fresh_clips])

/-- C4: for a chain of `k >= 1` nodes linked from the root through their
behind references (all ahead references and the last behind reference are the
sentinel) and a sphere with negative `min_dist` at every node of the chain,
`bsp_clip_sphere` returns exactly one clip; when the greatest `min_dist` of
the chain is above `-1000`, the clip's normal is the plane normal of the
earliest node attaining that greatest value. -/
theorem C4_chain_emits_shallowest_plane (ops : float_ops) (bsp : bsp_t) (sphere : sphere_t)
    (clips : List clip_t) (fuel : Nat) (chain : List bsp_node_t)
    (hchain : IsChain bsp 0 chain) (hk : chain ≠ [])
    (hneg : ∀ nd ∈ chain, min_dist ops sphere nd < float_t.fin 0)
    (hcap : 0 < clips.length) (hfuel : chain.length ≤ fuel) :
    ∃ v : vec3_t,
      bsp_clip_sphere ops fuel clips bsp sphere = .done (clips.set 0 ⟨v⟩) 1 ∧
      ∀ (j : Nat) (ndj : bsp_node_t), chain[j]? = some ndj →
        (∀ (i : Nat) (nd : bsp_node_t), chain[i]? = some nd →
          min_dist ops sphere nd ≤ min_dist ops sphere ndj) →
        (∀ (i : Nat) (nd : bsp_node_t), i < j → chain[i]? = some nd →
          min_dist ops sphere nd < min_dist ops sphere ndj) →
        float_t.fin (-1000) < min_dist ops sphere ndj →
        v = ndj.plane.normal := by
  have hL := chain_clip_list bsp sphere chain 0 initial_plane fuel hchain hk hneg hfuel
  have hrun := bsp_clip_R_refines bsp sphere fuel clips 0 initial_plane 0 _ hL
    (by simpa using hcap)
  refine ⟨(chain.foldl (fun q nd => update_min_plane ops sphere nd q) initial_plane).normal,
    ?_, ?_⟩
  · rw [store_from_single clips 0 _ hcap]
    simpa [bsp_clip_sphere] using hrun
  · intro j ndj hj hmax hfirst hgt
    exact chain_fold_normal sphere chain initial_plane j ndj hj hmax hfirst hgt

/-- The two-node chain of the spec: the deeper wall plane has the less negative
`min_dist` (-3/2 against -3), and the one clip carries its normal `(1,0,0)`. -/
theorem C4_witness :
    IsChain chain_tree 0 chain_tree.nodes ∧ chain_tree.nodes ≠ [] ∧
    (∀ nd ∈ chain_tree.nodes, min_dist exact_ops chain_sphere nd < float_t.fin 0) ∧
    0 < (fresh_clips 1).length ∧ chain_tree.nodes.length ≤ 2 ∧
    min_dist exact_ops chain_sphere chain_root = float_t.fin (-3) ∧
    min_dist exact_ops chain_sphere wall_node = float_t.fin (-3/2) ∧
    bsp_clip_sphere exact_ops 2 (fresh_clips 1) chain_tree chain_sphere
      = .done ((fresh_clips 1).set 0 ⟨wall_plane.normal⟩) 1 := by
  have h0 : min_dist exact_ops chain_sphere chain_root = float_t.fin (-3) := by
    norm_num [min_dist, exact_ops, chain_sphere, chain_root, floor_plane]
  have h1 : min_dist exact_ops chain_sphere wall_node = float_t.fin (-3/2) := by
    norm_num [min_dist, exact_ops, chain_sphere, wall_node, wall_plane]
  have hchain : IsChain chain_tree 0 chain_tree.nodes := by
    simp [IsChain, node_at, chain_tree, chain_root, wall_node]
  have hk : chain_tree.nodes ≠ [] := by simp [chain_tree]
  have hneg : ∀ nd ∈ chain_tree.nodes, min_dist exact_ops chain_sphere nd < float_t.fin 0 := by
    intro nd hnd
    simp [chain_tree] at hnd
    rcases hnd with rfl | rfl
    · rw [h0, float_fin_lt_fin]; norm_num
    · rw [h1, float_fin_lt_fin]; norm_num
  have hcap : 0 < (fresh_clips 1).length := by simp [fresh_clips]
  have hfuel : chain_tree.nodes.length ≤ 2 := by simp [chain_tree]
  obtain ⟨v, hrun, hv⟩ := C4_chain_emits_shallowest_plane exact_ops chain_tree chain_sphere
    (fresh_clips 1) 2 chain_tree.nodes hchain hk hneg hcap hfuel
  have hnormal : v = wall_node.plane.normal := by
    refine hv 1 wall_node (by simp [chain_tree]) ?_ ?_ ?_
    · intro i nd hi
      rcases i with _ | _ | i <;> simp [chain_tree] at hi <;> subst hi
      · rw [h0, h1, float_fin_le_fin]; norm_num
      · rw [h1, float_fin_le_fin]
    · intro i nd hij hi
      obtain rfl : i = 0 := by omega
      simp [chain_tree] at hi
      subst hi
      rw [h0, h1, float_fin_lt_fin]; norm_num
    · rw [h1, float_fin_lt_fin]; norm_num
  rw [hnormal] at hrun
  exact ⟨hchain, hk, hneg, hcap, hfuel, h0, h1, hrun⟩

/-- C5: on a well-formed BSP tree the recursion of `bsp_clip_R` started at the
root terminates: with fuel for as many nested calls as the tree has nodes it
never runs out of fuel, more fuel does not change the outcome, and every chain
of recursive calls from the root passes at most that many nodes. -/
theorem C5_traversal_terminates (ops : float_ops) (bsp : bsp_t) (sphere : sphere_t) (clips : List clip_t)
    (min_plane : bsp_plane_t) (num_clips : Int) (fuel : Nat) (hwf : WellFormed bsp)
    (hfuel : bsp.nodes.length ≤ fuel) :
    bsp_clip_R ops fuel clips bsp 0 sphere min_plane num_clips ≠ .out_of_fuel ∧
    bsp_clip_R ops fuel clips bsp 0 sphere min_plane num_clips
      = bsp_clip_R ops bsp.nodes.length clips bsp 0 sphere min_plane num_clips ∧
    ∀ (path : List (Nat × Bool)) (r2 : Int) (p2 : bsp_plane_t),
      Descent ops bsp sphere 0 min_plane path r2 p2 → path.length ≤ bsp.nodes.length := by
  obtain ⟨S, hS⟩ := hwf
  have hSc := TreeAt_card_le bsp 0 S hS
  obtain ⟨heq, hres⟩ := @tree_run ops bsp sphere 0 S hS fuel bsp.nodes.length (by omega) hSc
    clips min_plane num_clips
  refine ⟨?_, heq, ?_⟩
  · rcases hres with ⟨c, m, h⟩ | h <;> rw [h] <;> simp
  · intro path r2 p2 hd
    exact (tree_descent_length bsp sphere 0 S hS min_plane path r2 p2 hd).trans hSc

/-- The traversal of the corner tree from its root does not run out of fuel. -/
theorem C5_witness :
    WellFormed corner_tree ∧ corner_tree.nodes.length ≤ 5 ∧
    bsp_clip_R exact_ops 5 (fresh_clips 2) corner_tree 0 corner_sphere initial_plane 0 ≠ .out_of_fuel :=
  ⟨corner_tree_wf, by decide,
    (C5_traversal_terminates exact_ops corner_tree corner_sphere (fresh_clips 2) initial_plane 0 5
      corner_tree_wf (by decide)).1⟩

/-- C6: called with the sentinel reference `-1`, `bsp_clip_R` returns the clip
count it was given and leaves the buffer as it was, for every tree, sphere,
binding plane and starting count; so a query rooted at the sentinel yields no
clip. -/
theorem C6_sentinel_returns_count (ops : float_ops) (fuel : Nat) (clips : List clip_t) (bsp : bsp_t)
    (sphere : sphere_t) (min_plane : bsp_plane_t) (num_clips : Int) :
    bsp_clip_R ops fuel clips bsp (-1) sphere min_plane num_clips = .done clips num_clips ∧
    bsp_clip_R ops fuel clips bsp (-1) sphere initial_plane 0 = .done clips 0 :=
  ⟨bsp_clip_R_sentinel fuel clips bsp sphere min_plane num_clips,
    bsp_clip_R_sentinel fuel clips bsp sphere initial_plane 0⟩

/-- C7: the fixed-buffer traversal and the list-returning traversal agree. For
a node reference whose subtree is well formed the list form returns a list
`L`, and for every binding plane, starting count `n` and buffer with room for
`n + length L` entries, `bsp_clip_R` returns the count `n + length L`, stores
`L` in order at the indices `n .. n + length L - 1`, and leaves every other
entry of the buffer (all those below `n` among them) unchanged. -/
theorem C7_buffer_form_refines_list_form (ops : float_ops) (bsp : bsp_t) (sphere : sphere_t) (node_id : Int)
    (S : Finset Nat) (min_plane : bsp_plane_t) (fuel : Nat)
    (htree : TreeAt bsp node_id S) (hfuel : S.card ≤ fuel) :
    ∃ L : List vec3_t,
      clip_list ops fuel bsp node_id sphere min_plane = some L ∧
      ∀ (clips : List clip_t) (n : Nat), n + L.length ≤ clips.length →
        ∃ clips' : List clip_t,
          bsp_clip_R ops fuel clips bsp node_id sphere min_plane (n : Int)
            = .done clips' ((n + L.length : Nat) : Int) ∧
          clips'.length = clips.length ∧
          (∀ k, k < L.length → clips'[n + k]? = (L[k]?).map clip_t.mk) ∧
          (∀ k, k < n ∨ n + L.length ≤ k → clips'[k]? = clips[k]?) := by
  obtain ⟨L, _, hL, _, _, _⟩ := @tree_clip_list ops bsp sphere node_id S htree fuel hfuel min_plane
  refine ⟨L, hL, ?_⟩
  intro clips n hcap
  exact ⟨store_from clips n L,
    bsp_clip_R_refines bsp sphere fuel clips node_id min_plane n L hL hcap,
    store_from_length clips n L hcap,
    fun k hk => store_from_getElem?_mid clips n L hcap k hk,
    fun k hk => store_from_getElem?_out clips n L hcap k hk⟩

/-- The corner tree is a tree below its root; its buffer traversal with fuel 2
stores the clips of the list form. -/
theorem C7_witness :
    TreeAt corner_tree (0 : Nat) (insert 0 (insert 1 (∅ ∪ ∅) ∪ ∅)) ∧
    (insert 0 (insert 1 (∅ ∪ ∅) ∪ ∅) : Finset Nat).card ≤ 2 ∧
    ∃ L : List vec3_t,
      clip_list exact_ops 2 corner_tree (0 : Nat) corner_sphere initial_plane = some L ∧
      ∀ (clips : List clip_t) (n : Nat), n + L.length ≤ clips.length →
        ∃ clips' : List clip_t,
          bsp_clip_R exact_ops 2 clips corner_tree (0 : Nat) corner_sphere initial_plane (n : Int)
            = .done clips' ((n + L.length : Nat) : Int) ∧
          clips'.length = clips.length ∧
          (∀ k, k < L.length → clips'[n + k]? = (L[k]?).map clip_t.mk) ∧
          (∀ k, k < n ∨ n + L.length ≤ k → clips'[k]? = clips[k]?) :=
  ⟨corner_tree_at_root, by decide,
    C7_buffer_form_refines_list_form exact_ops corner_tree corner_sphere (0 : Nat) _ initial_plane 2
      corner_tree_at_root (by decide)⟩

/-- C8: for a well-formed tree and any sphere, the number of clips returned by
`bsp_clip_sphere` is the number of reached nodes whose behind reference is the
sentinel and whose `min_dist` is negative, where the root is reached, the
ahead child of a reached node is reached when that node has `max_dist > 0`,
and the behind child when it has `min_dist < 0`. In particular no clip is
returned exactly when there is no such node. -/
theorem C8_clip_count_eq_reached_emitters (ops : float_ops) (bsp : bsp_t) (sphere : sphere_t)
    (clips : List clip_t) (fuel : Nat) (hwf : WellFormed bsp)
    (hcap : bsp.nodes.length ≤ clips.length) (hfuel : bsp.nodes.length ≤ fuel) :
    ∃ (clips' : List clip_t) (n : Nat),
      bsp_clip_sphere ops fuel clips bsp sphere = .done clips' (n : Int) ∧
      n = Set.ncard {i | Reached ops bsp sphere 0 i ∧ Emits ops bsp sphere i} ∧
      (n = 0 ↔ ∀ i, ¬ (Reached ops bsp sphere 0 i ∧ Emits ops bsp sphere i)) := by
  obtain ⟨L, E, _, _, hE, hlen, hrun⟩ := @wf_sphere_run ops bsp sphere clips fuel hwf hcap hfuel
  have hset : {i | Reached ops bsp sphere 0 i ∧ Emits ops bsp sphere i} = (E : Set Nat) := by
    ext i
    simp [hE i]
  refine ⟨store_from clips 0 L, L.length, hrun, ?_, ?_⟩
  · rw [hset, Set.ncard_coe_Finset, hlen]
  · rw [hlen, Finset.card_eq_zero]
    constructor
    · intro h i hi
      have := (hE i).mpr hi
      simp [h] at this
    · intro h
      ext i
      simp only [Finset.not_mem_empty, iff_false]
      exact fun hi => h i ((hE i).mp hi)

/-- The corner tree queried with a two-entry buffer: the returned count is the
number of reached nodes that write a clip. -/
theorem C8_witness :
    WellFormed corner_tree ∧ corner_tree.nodes.length ≤ (fresh_clips 2).length ∧
    corner_tree.nodes.length ≤ 2 ∧
    ∃ (clips' : List clip_t) (n : Nat),
      bsp_clip_sphere exact_ops 2 (fresh_clips 2) corner_tree corner_sphere = .done clips' (n : Int) ∧
      n = Set.ncard {i | Reached exact_ops corner_tree corner_sphere 0 i ∧
        Emits exact_ops corner_tree corner_sphere i} ∧
      (n = 0 ↔ ∀ i, ¬ (Reached exact_ops corner_tree corner_sphere 0 i ∧
        Emits exact_ops corner_tree corner_sphere i)) :=
  ⟨corner_tree_wf, by decide, by decide,
    C8_clip_count_eq_reached_emitters exact_ops corner_tree corner_sphere (fresh_clips 2) 2
      corner_tree_wf (by decide) (by decide)⟩

/-- C9: the binding plane only tightens. `bsp_clip_R_calls` is `bsp_clip_R`
with its recursive calls recorded: it has the outcome of `bsp_clip_R`, and when
it returns, the calls made at the starting node and at the node of every
recorded call are all recorded. Every recorded call is made by the invocation
itself or by another recorded call, from a node of the tree. A call on the
ahead child (bsp.c line 22) is handed the binding distance the caller
received; a call on the behind child (bsp.c line 35) is handed the maximum of
that distance and the caller's `min_dist`. So no call is handed a smaller
distance than its caller received, and in a traversal started from a distance
of at least `-1000`, as a query is, every binding distance is at least
`-1000`. -/
theorem C9_binding_plane_only_tightens (ops : float_ops) (fuel : Nat) (clips : List clip_t)
    (bsp : bsp_t) (node_id : Int) (sphere : sphere_t) (min_plane : bsp_plane_t)
    (num_clips : Int) :
    (bsp_clip_R_calls ops fuel clips bsp node_id sphere min_plane num_clips).1
      = bsp_clip_R ops fuel clips bsp node_id sphere min_plane num_clips ∧
    (bsp_clip_R_calls ops fuel clips bsp 0 sphere initial_plane 0).1
      = bsp_clip_sphere ops fuel clips bsp sphere ∧
    (∀ c ∈ (bsp_clip_R_calls ops fuel clips bsp node_id sphere min_plane num_clips).2,
      ((c.caller = node_id ∧ c.received = min_plane) ∨
        ∃ c2 ∈ (bsp_clip_R_calls ops fuel clips bsp node_id sphere min_plane num_clips).2,
          c2.callee = c.caller ∧ c2.passed = c.received) ∧
      (∃ nd, node_at bsp c.caller = some nd ∧
        (c.behind = false →
          c.callee = nd.ahead ∧ c.passed.distance = c.received.distance) ∧
        (c.behind = true →
          c.callee = nd.behind ∧
          c.passed.distance = float_max c.received.distance (min_dist ops sphere nd)) ∧
        (float_t.fin (-1000) ≤ min_plane.distance → c.behind = true →
          min_dist ops sphere nd ≤ c.passed.distance)) ∧
      ¬ c.passed.distance < c.received.distance ∧
      (float_t.fin (-1000) ≤ min_plane.distance →
        float_t.fin (-1000) ≤ c.received.distance ∧
        c.received.distance ≤ c.passed.distance)) ∧
    (∀ (cl : List clip_t) (m : Int),
      (bsp_clip_R_calls ops fuel clips bsp node_id sphere min_plane num_clips).1
        = .done cl m →
      (∀ nd, node_at bsp node_id = some nd →
        (float_t.fin 0 < max_dist ops sphere nd →
          (⟨node_id, min_plane, false, nd.ahead, min_plane⟩ : call_t) ∈
            (bsp_clip_R_calls ops fuel clips bsp node_id sphere min_plane num_clips).2) ∧
        (min_dist ops sphere nd < float_t.fin 0 →
          (⟨node_id, min_plane, true, nd.behind,
              update_min_plane ops sphere nd min_plane⟩ : call_t) ∈
            (bsp_clip_R_calls ops fuel clips bsp node_id sphere min_plane num_clips).2)) ∧
      (∀ c ∈ (bsp_clip_R_calls ops fuel clips bsp node_id sphere min_plane num_clips).2,
        ∀ nd, node_at bsp c.callee = some nd →
          (float_t.fin 0 < max_dist ops sphere nd →
            (⟨c.callee, c.passed, false, nd.ahead, c.passed⟩ : call_t) ∈
              (bsp_clip_R_calls ops fuel clips bsp node_id sphere min_plane num_clips).2) ∧
          (min_dist ops sphere nd < float_t.fin 0 →
            (⟨c.callee, c.passed, true, nd.behind,
                update_min_plane ops sphere nd c.passed⟩ : call_t) ∈
              (bsp_clip_R_calls ops fuel clips bsp node_id sphere min_plane
                num_clips).2))) := by
  refine ⟨bsp_clip_R_calls_fst bsp sphere fuel clips node_id min_plane num_clips,
    bsp_clip_R_calls_fst bsp sphere fuel clips 0 initial_plane 0, ?_,
    fun cl m hdone => @bsp_clip_R_calls_complete ops bsp sphere fuel clips node_id min_plane
      num_clips cl m hdone⟩
  intro c hc
  obtain ⟨hlink, ⟨nd, hnd, hshape⟩, hbound⟩ :=
    @bsp_clip_R_calls_spec ops bsp sphere fuel clips node_id min_plane num_clips c hc
  refine ⟨hlink, ⟨nd, hnd, ?_, ?_, ?_⟩, ?_, ?_⟩
  · intro hb
    rcases hshape with ⟨_, _, h1, h2⟩ | ⟨h0, _⟩
    · exact ⟨h1, by rw [h2]⟩
    · rw [hb] at h0
      cases h0
  · intro hb
    rcases hshape with ⟨h0, _⟩ | ⟨_, _, h1, h2⟩
    · rw [hb] at h0
      cases h0
    · exact ⟨h1, by rw [h2, update_min_plane_distance]⟩
  · intro hstart hb
    have hrecv : float_t.fin (-1000) ≤ c.received.distance := hbound _ hstart
    rcases hshape with ⟨h0, _⟩ | ⟨_, hmin, _, h2⟩
    · rw [hb] at h0
      cases h0
    · rw [h2]
      unfold update_min_plane
      split
      · exact float_le_refl_of_lt_left hmin
      · next hnot =>
        exact float_le_of_not_lt (float_le_refl_of_le_right hrecv)
          (float_le_refl_of_lt_left hmin) hnot
  · rcases hshape with ⟨_, _, _, h2⟩ | ⟨_, _, _, h2⟩
    · rw [h2]
      exact float_lt_irrefl _
    · rw [h2]
      unfold update_min_plane
      split
      · next hgt => exact float_lt_asymm hgt
      · exact float_lt_irrefl _
  · intro hstart
    have hrecv : float_t.fin (-1000) ≤ c.received.distance := hbound _ hstart
    refine ⟨hrecv, ?_⟩
    rcases hshape with ⟨_, _, _, h2⟩ | ⟨_, _, _, h2⟩
    · rw [h2]
      exact float_le_refl_of_le_right hrecv
    · rw [h2]
      unfold update_min_plane
      split
      · next hgt => exact float_le_of_lt hgt
      · exact float_le_refl_of_le_right hrecv

/-- The query on the two-node chain makes three recursive calls: the behind
call of the root, handed the distance `-3`, and the ahead and behind calls of
the wall node, handed `-3` and `-3/2`. Each was received with a distance of at
least `-1000` and hands on a distance that is not smaller. -/
theorem C9_witness :
    (bsp_clip_R_calls exact_ops 2 (fresh_clips 1) chain_tree 0 chain_sphere initial_plane 0).2
      = [⟨0, initial_plane, true, 1, ⟨floor_plane.normal, .fin (-3)⟩⟩,
         ⟨1, ⟨floor_plane.normal, .fin (-3)⟩, false, -1, ⟨floor_plane.normal, .fin (-3)⟩⟩,
         ⟨1, ⟨floor_plane.normal, .fin (-3)⟩, true, -1, ⟨wall_plane.normal, .fin (-3/2)⟩⟩] ∧
    ∀ c ∈ (bsp_clip_R_calls exact_ops 2 (fresh_clips 1) chain_tree 0 chain_sphere
        initial_plane 0).2,
      float_t.fin (-1000) ≤ c.received.distance ∧ c.received.distance ≤ c.passed.distance := by
  constructor
  · norm_num [bsp_clip_R_calls, node_at, chain_tree, chain_root, wall_node, floor_plane,
      wall_plane, fresh_clips, min_dist, max_dist, exact_ops, update_min_plane, initial_plane,
      clip_write, chain_sphere, List.replicate, float_fin_lt_fin]
  · intro c hc
    exact ((C9_binding_plane_only_tightens exact_ops 2 (fresh_clips 1) chain_tree 0
      chain_sphere initial_plane 0).2.2.1 c hc).2.2.2 (by decide)

end Bsp
